import Mathlib

/-! The club-website build script (`gulpfile.js`).

A shallow embedding of the build orchestration script: the task declarations
(names, prerequisites, run sequence, watch triggers), the stream pipelines each
task builds (`gulp.src` globs, plugin stages, `gulp.dest` directories), the
`cache-config` manifest generator and the `generate-roster` task.

Third-party collaborators (the glob enumeration, the MD5 digest, the file
write, the lint plugin, the task scheduler) are not part of the script; they
enter the model as fields of an environment record or as small executable
models of their documented behaviour, each marked as such.
-/

namespace Gulpfile

/-! ## Strings, JSON text and POSIX paths -/

/-- The backslash character. -/
def backslash : Char := Char.ofNat 92

/-- The double quote character. -/
def dquote : Char := Char.ofNat 34

/-- The path separator of `path.posix`. -/
def slash : Char := Char.ofNat 47

/-- The dot character. -/
def dot : Char := Char.ofNat 46

/-- Lower-case hexadecimal digit of a number below sixteen. -/
def hexDigit (n : Nat) : Char :=
  if n < 10 then Char.ofNat (48 + n) else Char.ofNat (87 + n)

/-- Escape of one character inside a JSON string, as `JSON.stringify` quotes
it: the quote and the backslash are escaped, the control characters below
U+0020 use their short form or `\u00XX`, everything else is kept. -/
def jsonEscapeChar (c : Char) : List Char :=
  if c = dquote then [backslash, dquote]
  else if c = backslash then [backslash, backslash]
  else if c.toNat = 8 then [backslash, 'b']
  else if c.toNat = 12 then [backslash, 'f']
  else if c.toNat = 10 then [backslash, 'n']
  else if c.toNat = 13 then [backslash, 'r']
  else if c.toNat = 9 then [backslash, 't']
  else if c.toNat < 32 then
    [backslash, 'u', '0', '0', hexDigit (c.toNat / 16), hexDigit (c.toNat % 16)]
  else [c]

/-- Characters of a string, escaped. -/
def jsonEscape : List Char → List Char
  | [] => []
  | c :: cs => jsonEscapeChar c ++ jsonEscape cs

/-- Result of `JSON.stringify(s)` for a string `s`. -/
def jsonString (s : String) : String :=
  String.mk (dquote :: jsonEscape s.data ++ [dquote])

/-- Items joined by a separator, as `Array.prototype.join`. -/
def joinWith (sep : String) : List String → String
  | [] => ""
  | [x] => x
  | x :: y :: rest => x ++ sep ++ joinWith sep (y :: rest)

/-- Result of `JSON.stringify(xs)` for an array of strings (no indentation). -/
def jsonStringArray (xs : List String) : String :=
  "[" ++ joinWith "," (xs.map jsonString) ++ "]"

/-- Result of `JSON.stringify(b)` for a boolean. -/
def jsonBool (b : Bool) : String := if b then "true" else "false"

/-- Components of a path: the pieces between separators, empty pieces kept. -/
def splitSlash : List Char → List (List Char)
  | [] => [[]]
  | c :: cs =>
    if c = slash then [] :: splitSlash cs
    else
      match splitSlash cs with
      | [] => [[c]]
      | p :: ps => (c :: p) :: ps

/-- One step of `normalizeString` of Node's `path` module over the stack of
components kept so far (most recent first): empty and `.` components are dropped,
`..` removes the previous component, or is kept when nothing can be removed and
the path is relative. -/
def normStep (allowAboveRoot : Bool) (acc : List (List Char)) (seg : List Char) :
    List (List Char) :=
  if seg = [] ∨ seg = [dot] then acc
  else if seg = [dot, dot] then
    match acc with
    | [] => if allowAboveRoot then [seg] else []
    | top :: rest => if top = [dot, dot] then seg :: acc else rest
  else seg :: acc

/-- Normalised components of a path, in order. -/
def normSegments (allowAboveRoot : Bool) (p : List Char) : List (List Char) :=
  ((splitSlash p).foldl (normStep allowAboveRoot) []).reverse

/-- Components joined by the separator. -/
def joinSegments : List (List Char) → List Char
  | [] => []
  | [s] => s
  | s :: t :: rest => s ++ slash :: joinSegments (t :: rest)

/-- The function `path.posix.normalize`. -/
def pathNormalize (p : String) : String :=
  if p.data = [] then "."
  else
    let isAbsolute := p.data.head? = some slash
    let trailing := p.data.getLast? = some slash
    let body := joinSegments (normSegments (!isAbsolute) p.data)
    let body := if body = [] ∧ ¬ isAbsolute then [dot] else body
    let body := if body ≠ [] ∧ trailing then body ++ [slash] else body
    String.mk (if isAbsolute then slash :: body else body)

/-- The function `path.posix.join`: the non-empty arguments joined by the
separator, then normalised; `.` when nothing is left. -/
def pathJoin (parts : List String) : String :=
  match parts.filter (fun s => s.data ≠ []) with
  | [] => "."
  | ps => pathNormalize (joinWith "/" ps)

/-- Last component of a path once trailing separators are dropped; empty for
a path made of separators only. -/
def lastSegment (p : List Char) : List Char :=
  match (splitSlash p).reverse.dropWhile (fun s => s = []) with
  | [] => []
  | s :: _ => s

/-- Splits one path component at its last dot: what precedes the dot, and the
dot with what follows it; nothing when the component has no dot. -/
def splitAtLastDot : List Char → Option (List Char × List Char)
  | [] => none
  | c :: cs =>
    match splitAtLastDot cs with
    | some (stem, ext) => some (c :: stem, ext)
    | none => if c = dot then some ([], c :: cs) else none

/-- The function `path.posix.extname`: from the last dot of the last component
to its end; empty when there is no dot, when the only dot is the first
character of the component, or when the component is `..`. -/
def pathExtname (p : String) : String :=
  let base := lastSegment p.data
  match splitAtLastDot base with
  | none => ""
  | some (stem, ext) =>
    if stem = [] ∨ base = [dot, dot] then "" else String.mk ext

/-- Removes `ext` from the end of `base` when it is a proper suffix of it. -/
def stripSuffix (base ext : List Char) : List Char :=
  if ext.length < base.length ∧ base.drop (base.length - ext.length) = ext then
    base.take (base.length - ext.length)
  else base

/-- The function `path.posix.basename(path, ext)`: the last component of the
path, without `ext` when `ext` is non-empty and ends it. -/
def pathBasename (p : String) (ext : String) : String :=
  if ext.data ≠ [] ∧ ext = p then ""
  else if ext.data ≠ [] then String.mk (stripSuffix (lastSegment p.data) ext.data)
  else String.mk (lastSegment p.data)

/-! ## The `cache-config` task -/

/-- The world outside the script, as the `cache-config` task sees it. -/
structure Env (ε : Type) where
  /-- The `name` field of `package.json`, when it has one. -/
  packageJsonName : Option String
  /-- The directory of the script, `__dirname`. -/
  dirname : String
  /-- The call `glob(pattern, {cwd: dir}, cb)`: what the callback receives. -/
  glob : String → String → Except ε (List String)
  /-- Hex MD5 digest of a string, `crypto.createHash` with `digest` in hex. -/
  md5hex : String → String
  /-- The call `fs.writeFile(path, data, cb)`: the error the callback receives,
  or none. -/
  writeFile : String → String → Option ε

/-- The object `config` once all four fields are set, in insertion order. -/
structure Manifest where
  cacheId : String
  disabled : Bool
  precache : List String
  precacheFingerprint : String
  deriving DecidableEq, Repr

/-- Result of `JSON.stringify(config)`. -/
def Manifest.toJson (m : Manifest) : String :=
  "\x7b" ++ jsonString "cacheId" ++ ":" ++ jsonString m.cacheId ++ ","
    ++ jsonString "disabled" ++ ":" ++ jsonBool m.disabled ++ ","
    ++ jsonString "precache" ++ ":" ++ jsonStringArray m.precache ++ ","
    ++ jsonString "precacheFingerprint" ++ ":" ++ jsonString m.precacheFingerprint
    ++ "\x7d"

/-- What one run of a callback-style task did. -/
structure TaskRun (ε : Type) where
  /-- Argument the completion callback was called with: an error, or none. -/
  callback : Option ε
  /-- The manifest object built, when the run got that far. -/
  manifest : Option Manifest
  /-- Every `fs.writeFile` call made: path and data. -/
  writes : List (String × String)

/-- The glob pattern of the precache set. -/
def precachePattern : String := "\x7belements,scripts,styles\x7d/**/*.*"

/-- The entries pushed after the enumerated files. -/
def fixedEntries : List String :=
  ["index.html", "./", "bower_components/webcomponentsjs/webcomponents-lite.min.js"]

/-- The expression `packageJson.name || path.basename(__dirname)`. -/
def cacheId {ε : Type} (env : Env ε) : String :=
  match env.packageJsonName with
  | some n => if n.data ≠ [] then n else pathBasename env.dirname ""
  | none => pathBasename env.dirname ""

/-- The object built in the success branch of the glob callback. -/
def buildManifest {ε : Type} (env : Env ε) (files : List String) : Manifest :=
  let precache := files ++ fixedEntries
  { cacheId := cacheId env
    disabled := false
    precache := precache
    precacheFingerprint := env.md5hex (jsonStringArray precache) }

/-- The task `cache-config`. -/
def cacheConfig {ε : Type} (env : Env ε) : TaskRun ε :=
  let dir := "dist"
  match env.glob precachePattern dir with
  | .error error => { callback := some error, manifest := none, writes := [] }
  | .ok files =>
    let config := buildManifest env files
    let configPath := pathJoin [dir, "cache-config.json"]
    { callback := env.writeFile configPath config.toJson
      manifest := some config
      writes := [(configPath, config.toJson)] }

/-! ## Stream pipelines -/

/-- The things the task bodies read from outside the script when they run. -/
structure World where
  /-- The flag `browserSync.active`. -/
  browserSyncActive : Bool
  /-- The paths `glob.sync("app/roster/*")` returns. -/
  rosterPaths : List String
  /-- The call `stringifyObject(members, ...)` with the options of the script. -/
  stringifyObject : List String → String

/-- Condition of a `$.if(...)` stage: a boolean or a glob on the file. -/
inductive Cond where
  | bool (b : Bool)
  | glob (pattern : String)
  deriving DecidableEq, Repr

/-- One `.pipe(...)` stage of a stream. -/
inductive Stage where
  /-- A plugin that transforms or measures the files passing through. -/
  | plugin (name : String)
  /-- The stage `$.jshint.reporter(name)`. -/
  | reporter (name : String)
  /-- The stage `$.rename(...)`: changes the file name inside its directory. -/
  | rename (how : String)
  /-- The stage `$.changed(dest, options)`: lets through the files newer than
  their counterpart under `dest`, with the given extension; it writes nothing. -/
  | changed (dest : String) (extension : String)
  /-- The stage `gulp.dest(dir)`: writes every file under `dir`. -/
  | dest (dir : String)
  /-- The stage `$.if(cond, stage)`. -/
  | when (cond : Cond) (stage : Stage)
  deriving DecidableEq, Repr

/-- Where the files of a stream come from. -/
inductive Source where
  /-- The call `gulp.src(globs)`. -/
  | globs (patterns : List String)
  /-- A single in-memory file: relative path and contents. -/
  | file (path : String) (contents : String)
  deriving DecidableEq, Repr

/-- A stream: its source and the stages piped after it, in order. -/
structure Stream where
  src : Source
  stages : List Stage
  deriving DecidableEq, Repr

/-- Directories a stage writes into. -/
def Stage.dests : Stage → List String
  | .dest dir => [dir]
  | .when _ s => s.dests
  | _ => []

/-- Directories a stream writes into, in pipeline order. -/
def Stream.dests (s : Stream) : List String :=
  s.stages.flatMap Stage.dests

/-- Glob patterns a stream takes its files from: the argument of `gulp.src`. -/
def Stream.reads (s : Stream) : List String :=
  match s.src with
  | .globs ps => ps
  | .file _ _ => []

/-- The function `styleTask`. -/
def styleTask (stylesPath : String) (srcs : List String) : Stream :=
  { src := .globs (srcs.map (fun src => pathJoin ["app", stylesPath, src]))
    stages :=
      [ .changed stylesPath ".css",
        .plugin "autoprefixer",
        .dest (".tmp/" ++ stylesPath),
        .plugin "cssmin",
        .dest ("dist/" ++ stylesPath),
        .plugin ("size " ++ stylesPath) ] }

/-- The function `jshintTask`; `browserSync.active` is read when it is called. -/
def jshintTask (w : World) (src : List String) : Stream :=
  { src := .globs src
    stages :=
      [ .plugin "jshint.extract",
        .plugin "jshint",
        .reporter "jshint-stylish",
        .when (.bool (!w.browserSyncActive)) (.reporter "fail") ] }

/-- The function `imageOptimizeTask`. -/
def imageOptimizeTask (src : String) (dest : String) : Stream :=
  { src := .globs [src]
    stages := [ .plugin "cache imagemin", .dest dest, .plugin "size images" ] }

/-- The function `optimizeHtmlTask`. -/
def optimizeHtmlTask (src : List String) (dest : String) : Stream :=
  { src := .globs src
    stages :=
      [ .when (.glob "app/index.html") (.plugin "replace"),
        .plugin "useref.assets",
        .when (.glob "*.js") (.plugin "uglify"),
        .when (.glob "*.css") (.plugin "cssmin"),
        .plugin "assets.restore",
        .plugin "useref",
        .when (.glob "*.html") (.plugin "minifyHtml"),
        .dest dest,
        .plugin "size html" ] }

/-- The function `string_src`: a stream holding one file with the given name
and contents. -/
def string_src (filename : String) (string : String) : Stream :=
  { src := .file filename string, stages := [] }

/-- The method `.pipe(stage)`. -/
def Stream.pipe (s : Stream) (stage : Stage) : Stream :=
  { s with stages := s.stages ++ [stage] }

/-- Files a single-file stream leaves on disk: every `gulp.dest(dir)` it
passes writes the file, under its relative path, inside `dir`. -/
def Stream.written (s : Stream) : List (String × String) :=
  match s.src with
  | .file path contents => s.dests.map (fun dir => (pathJoin [dir, path], contents))
  | .globs _ => []

/-- The name pushed for one matched path: `path.basename(file, path.extname(file))`. -/
def member (file : String) : String :=
  pathBasename file (pathExtname file)

/-- The array `members` of `generate-roster` after the `forEach`. -/
def rosterMembers (w : World) : List String :=
  w.rosterPaths.map member

/-- The stream `generate-roster` returns. -/
def generateRoster (w : World) : Stream :=
  let string := w.stringifyObject (rosterMembers w)
  ((string_src "roster.json" string).pipe (.dest ".tmp/roster/")).pipe (.dest "dist/roster/")

/-- One stream of the loop of `resize-profiles`, for scale `i`. -/
def resizeProfile (i : Nat) : Stream :=
  { src := .globs ["app/roster/*/profile.jpg"]
    stages :=
      [ .plugin ("imageResize " ++ toString (100 * i)),
        .rename ("suffix -" ++ toString i ++ "x"),
        .dest "dist/roster/" ] }

/-- The seven streams `copy` merges, in the order of their declaration. -/
def copyStreams : List Stream :=
  [ { src := .globs ["app/*", "!app/test", "!app/cache-config.json"], stages := [.dest "dist"] },
    { src := .globs ["bower_components/**/*"], stages := [.dest "dist/bower_components"] },
    { src := .globs ["app/roster/**/*"], stages := [.dest "dist/roster"] },
    { src := .globs ["app/elements/**/*.html"], stages := [.dest "dist/elements"] },
    { src := .globs ["bower_components/platinum-sw/bootstrap/*.js"],
      stages := [.dest "dist/elements/bootstrap"] },
    { src := .globs ["bower_components/sw-toolbox/*.js"], stages := [.dest "dist/sw-toolbox"] },
    { src := .globs ["app/elements/elements.html"],
      stages := [.rename "elements.vulcanized.html", .dest "dist/elements"] } ]

/-! ## Task declarations -/

/-- A file watch of `serve`: the globs and the task names it triggers. -/
structure Watch where
  globs : List String
  tasks : List String
  deriving DecidableEq, Repr

/-- What the function of a task does. -/
inductive Body where
  /-- Builds streams and returns them (merged when several). -/
  | streams (ss : List Stream)
  /-- Calls `del(patterns)`. -/
  | del (patterns : List String)
  /-- Enumerates the precache set and writes the manifest (`cacheConfig`). -/
  | manifest
  /-- Starts the dev server and registers the watches. -/
  | browserSync (port : Nat) (watches : List Watch)
  /-- Calls `runSequence(groups..., cb)`. -/
  | runSequence (groups : List (List String))

/-- One `gulp.task(name, deps, fn)` declaration. -/
structure Task where
  name : String
  deps : List String
  body : World → Body

/-- The watches `serve` registers; `reload` is a function, not a task name. -/
def serveWatches : List Watch :=
  [ { globs := ["app/**/*.html"], tasks := [] },
    { globs := ["app/styles/**/*.css"], tasks := ["app-styles"] },
    { globs := ["app/elements/**/*.css"], tasks := ["element-styles"] },
    { globs := ["app/roster/**/*.css"], tasks := ["roster-styles"] },
    { globs := ["app/\x7bscripts,elements\x7d/**/\x7b*.js,*.html\x7d"], tasks := ["jshint"] },
    { globs := ["app/images/**/*"], tasks := [] },
    { globs := ["app/roster/**"], tasks := ["generate-roster"] } ]

/-- The groups given to `runSequence` in `default`; a bare name is a group of one. -/
def defaultSequence : List (List String) :=
  [ ["copy", "app-styles"],
    ["element-styles", "roster-styles"],
    ["app-images", "roster-images", "fonts", "html", "generate-roster"],
    ["resize-profiles"],
    ["vulcanize"], ["rename-index"], ["remove-old-build-index"] ]

/-- The task `default`. -/
def defaultTask : Task :=
  { name := "default", deps := ["clean"], body := fun _ => .runSequence defaultSequence }

/-- Every task the script declares, in source order. -/
def gulpfile : List Task :=
  [ { name := "app-styles", deps := [],
      body := fun _ => .streams [styleTask "styles" ["**/*.css"]] },
    { name := "element-styles", deps := [],
      body := fun _ => .streams [styleTask "elements" ["**/*.css"]] },
    { name := "roster-styles", deps := [],
      body := fun _ => .streams [styleTask "roster" ["**/*.css"]] },
    { name := "resize-profiles", deps := [],
      body := fun _ => .streams ([1, 2, 3].map resizeProfile) },
    { name := "app-images", deps := [],
      body := fun _ => .streams [imageOptimizeTask "app/images/**/*" "dist/images"] },
    { name := "roster-images", deps := [],
      body := fun _ =>
        .streams [imageOptimizeTask "app/roster/**/*.\x7bpng,jpg,jpeg\x7d" "dist/roster"] },
    { name := "jshint", deps := [],
      body := fun w => .streams [jshintTask w
        [ "app/scripts/**/*.js", "app/elements/**/*.js", "app/elements/**/*.html",
          "app/roster/**/*.js", "app/roster/**/*.html", "gulpfile.js" ]] },
    { name := "copy", deps := [], body := fun _ => .streams copyStreams },
    { name := "fonts", deps := [],
      body := fun _ => .streams
        [{ src := .globs ["app/fonts/**"],
           stages := [.dest "dist/fonts", .plugin "size fonts"] }] },
    { name := "html", deps := [],
      body := fun _ => .streams
        [optimizeHtmlTask ["app/**/*.html", "!app/\x7belements,test\x7d/**/*.html"] "dist"] },
    { name := "vulcanize", deps := [],
      body := fun _ => .streams
        [{ src := .globs ["dist/index.html"], stages := [.plugin "polybuild", .dest "dist/"] }] },
    { name := "rename-index", deps := [],
      body := fun _ => .streams
        [{ src := .globs ["dist/index.build.html"],
           stages := [.rename "index.html", .dest "dist/"] }] },
    { name := "remove-old-build-index", deps := [],
      body := fun _ => .del ["dist/index.build.html"] },
    { name := "cache-config", deps := [], body := fun _ => .manifest },
    { name := "clean", deps := [], body := fun _ => .del [".tmp", "dist"] },
    { name := "serve",
      deps := [ "app-styles", "element-styles", "roster-styles", "app-images",
                "roster-images", "resize-profiles", "generate-roster" ],
      body := fun _ => .browserSync 5000 serveWatches },
    { name := "serve:dist", deps := ["default"], body := fun _ => .browserSync 5001 [] },
    { name := "deploy", deps := ["default"],
      body := fun _ => .streams
        [{ src := .globs ["./dist/**/*"], stages := [.plugin "ghPages"] }] },
    { name := "generate-roster", deps := [], body := fun w => .streams [generateRoster w] },
    defaultTask ]

/-- Path of the manifest: `path.join(dir, "cache-config.json")` with `dir` the
output directory. -/
def manifestPath : String := pathJoin ["dist", "cache-config.json"]

/-- Paths and directories the function of a task writes into or deletes. -/
def Body.targets : Body → List String
  | .streams ss => ss.flatMap Stream.dests
  | .del patterns => patterns
  | .manifest => [manifestPath]
  | .browserSync _ _ => []
  | .runSequence _ => []

/-- Task names a body names: the run sequence and the watch triggers. -/
def Body.named : Body → List String
  | .runSequence groups => groups.flatten
  | .browserSync _ watches => watches.flatMap Watch.tasks
  | _ => []

/-- Whether the normalised path starts with the directory `root`: `root`
itself or something inside it. -/
def underRoot (root : String) (p : String) : Bool :=
  (normSegments true p.data).head? = some root.data

/-- Groups a body hands to `runSequence`. -/
def Body.sequence : Body → List (List String)
  | .runSequence groups => groups
  | _ => []

/-- The declaration of a task name, the last one winning as in the registry. -/
def lookup (name : String) : Option Task :=
  gulpfile.reverse.find? (fun t => t.name = name)

/-- Every task name running `gulp name` can start: the task, its
prerequisites and the members of its run sequence, transitively. The fuel
bounds the depth of the search; the number of declared tasks is enough. -/
def invoked (w : World) : Nat → String → List String
  | 0, name => [name]
  | fuel + 1, name =>
    match lookup name with
    | none => [name]
    | some t => name :: (t.deps ++ (t.body w).sequence.flatten).flatMap (invoked w fuel)

/-! ## Glob patterns of the script

Executable readings of two patterns the script hands to the glob library, with
its default options: a `*` never matches a separator nor a leading dot, `**`
matches any number of directories, none of them starting with a dot. -/

/-- A file or directory name `*` can match: not empty, no leading dot. -/
def plainName (n : List Char) : Bool :=
  n ≠ [] ∧ n.head? ≠ some dot

/-- Whether a path relative to the output directory matches the precache
pattern of `cache-config`: first component `elements`, `scripts` or `styles`,
then any directories, then a name holding a dot. -/
def matchesPrecacheGlob (p : String) : Bool :=
  match splitSlash p.data with
  | first :: rest =>
    (first = "elements".data ∨ first = "scripts".data ∨ first = "styles".data)
      ∧ rest ≠ [] ∧ rest.all plainName ∧ (∃ l ∈ rest.getLast?, dot ∈ l)
  | [] => false

/-- Whether a path matches the pattern `app/roster/*`. -/
def matchesRosterGlob (p : String) : Bool :=
  match splitSlash p.data with
  | [a, r, n] => a = "app".data ∧ r = "roster".data ∧ plainName n
  | _ => false

/-! ## Task scheduling

Gulp runs the prerequisites of a task to completion before its function; the
function of `default` calls `runSequence`, which starts the tasks of one group,
waits until each has stopped, and only then takes the next group; a task
error ends the sequence. The events of a build are recorded as a trace. -/

/-- What the scheduler observes of a task. -/
inductive Event where
  | start (task : String)
  | finish (task : String)
  | fail (task : String)
  deriving DecidableEq, Repr

/-- State of a build: the groups not begun, the tasks of the current group not
started yet, those running, and whether some task has failed. -/
structure Sched where
  pending : List (List String)
  waiting : List String
  running : List String
  failed : Bool
  deriving DecidableEq, Repr

/-- Takes the next group once the current one is over and nothing failed. -/
def Sched.advance (s : Sched) : Sched :=
  if s.waiting = [] ∧ s.running = [] ∧ s.failed = false then
    match s.pending with
    | [] => s
    | g :: gs => { s with pending := gs, waiting := g }
  else s

/-- One event: a task of the current group starts unless the build has failed,
a running task finishes (the next group is taken when it was the last), or a
running task fails. -/
def Sched.step (s : Sched) : Event → Option Sched
  | .start t =>
    if s.failed = false ∧ t ∈ s.waiting then
      some { s with waiting := s.waiting.erase t, running := t :: s.running }
    else none
  | .finish t =>
    if t ∈ s.running then some (Sched.advance { s with running := s.running.erase t })
    else none
  | .fail t =>
    if t ∈ s.running then some { s with running := s.running.erase t, failed := true }
    else none

/-- The state after a trace, when every event of it was possible. -/
def Sched.run (s : Sched) : List Event → Option Sched
  | [] => some s
  | e :: es => (s.step e).bind (fun s1 => s1.run es)

/-- The build is over and nothing failed. -/
def Sched.succeeded (s : Sched) : Bool :=
  s.pending = [] ∧ s.waiting = [] ∧ s.running = [] ∧ s.failed = false

/-- The stages of `gulp default`: the prerequisites of the task, then the
groups of its run sequence. -/
def defaultStages : List (List String) :=
  defaultTask.deps :: defaultSequence

/-- The build `gulp default` before its first event. -/
def defaultBuild : Sched :=
  { pending := defaultSequence, waiting := defaultTask.deps, running := [], failed := false }

/-! ## Output trees -/

/-- The files of the output directory: path relative to it, and content. -/
abbrev Tree := List (String × String)

/-- The paths of a tree, which is all an enumeration of names can see. -/
def Tree.paths (t : Tree) : List String := t.map Prod.fst

/-- The tree with the content of the file at `path` replaced. -/
def Tree.setContent (t : Tree) (path content : String) : Tree :=
  t.map (fun f => if f.1 = path then (f.1, content) else f)

/-- An environment whose enumeration lists the tree through the glob library
`lib`, a function of the pattern, the directory and the names under it. -/
def Env.onTree {ε : Type} (env : Env ε)
    (lib : String → String → List String → Except ε (List String)) (t : Tree) : Env ε :=
  { env with glob := fun pattern cwd => lib pattern cwd t.paths }

/-! ## Lint reporting -/

/-- Reporters a stage attaches: a boolean condition that is false drops the
stage it guards. -/
def Stage.reporters : Stage → List String
  | .reporter name => [name]
  | .when (.bool b) s => if b then s.reporters else []
  | .when (.glob _) s => s.reporters
  | _ => []

/-- Reporters attached to a stream, in order. -/
def Stream.reporters (s : Stream) : List String :=
  s.stages.flatMap Stage.reporters

/-- Outcome of a lint stream. -/
structure LintRun where
  /-- The violations were printed. -/
  reported : Bool
  /-- The stream emitted an error, which fails the task. -/
  failed : Bool
  deriving DecidableEq, Repr

/-- Runs a lint stream over sources that do or do not hold a violation: the
stylish reporter prints the violations, the failing reporter turns them into an
error of the stream. -/
def lint (s : Stream) (violation : Bool) : LintRun :=
  { reported := violation && decide ("jshint-stylish" ∈ s.reporters)
    failed := violation && decide ("fail" ∈ s.reporters) }

/-! ## The task graph -/

/-- Names of the declared tasks. -/
def taskNames : List String := gulpfile.map (fun t => t.name)

/-- The prerequisite relation: `b` is listed in the prerequisites of the task `a`. -/
def Prereq (a b : String) : Prop :=
  ∃ t ∈ gulpfile, t.name = a ∧ b ∈ t.deps

/-- Length of the longest chain of prerequisites below a task. -/
def depth (name : String) : Nat :=
  if name = "serve:dist" ∨ name = "deploy" then 2
  else if name = "default" ∨ name = "serve" then 1
  else 0

/-! ## Reference reading of a roster member -/

/-- Final component of a path: what follows its last separator. -/
def finalComponent (p : List Char) : List Char :=
  (p.reverse.takeWhile (fun c => c ≠ slash)).reverse

/-- A file name with only its last extension removed: the last dot and what
follows it are dropped, unless that dot opens the name. -/
def withoutLastExtension (n : List Char) : List Char :=
  let after := n.reverse.takeWhile (fun c => c ≠ dot)
  if dot ∈ n ∧ after.length + 1 < n.length then n.take (n.length - (after.length + 1))
  else n

/-- The member name the roster should hold for a matched path. -/
def expectedMember (path : String) : String :=
  String.mk (withoutLastExtension (finalComponent path.data))

/-! ## Path components without normalisation effects -/

/-- Components of a path that normalisation keeps as they are: the empty
ones and the `.` ones are dropped. -/
def keptSegments (p : List Char) : List (List Char) :=
  (splitSlash p).filter (fun s => decide (s ≠ [] ∧ s ≠ [dot]))

/-- Whether no component of the path is `..`. -/
def noParentSegment (p : String) : Bool :=
  decide ([dot, dot] ∉ splitSlash p.data)

/-! ## Invariant of a build -/

/-- What holds of a trace and the state it leads to, with `past` the groups
already over and `cur` the group being run: the past tasks have finished, the
tasks waiting or running belong to the current group, a task that has started
no longer waits, and a task that has finished had started and no longer runs. -/
structure SchedInv (past : List (List String)) (cur : List String) (evs : List Event)
    (s : Sched) : Prop where
  finished_past : ∀ t ∈ past.flatten, Event.finish t ∈ evs
  waiting_cur : ∀ t ∈ s.waiting, t ∈ cur
  running_cur : ∀ t ∈ s.running, t ∈ cur
  progress : s.failed = false →
    ∀ t ∈ cur, t ∈ s.waiting ∨ t ∈ s.running ∨ Event.finish t ∈ evs
  started : ∀ t, Event.start t ∈ evs → (t ∈ past.flatten ∨ t ∈ cur) ∧ t ∉ s.waiting
  running_started : ∀ t ∈ s.running, Event.start t ∈ evs
  finished : ∀ t, Event.finish t ∈ evs → Event.start t ∈ evs ∧ t ∉ s.running
  waiting_nodup : s.waiting.Nodup
  running_nodup : s.running.Nodup

/-! ## Sample inputs -/

/-- A stand-in digest for the sample environments: any function of the
serialized text will do where only the shape of a run is looked at. -/
def sampleDigest (s : String) : String := s

/-- The output directory of the scenario of the specification. -/
def sampleEnv : Env String :=
  { packageJsonName := some "club-website"
    dirname := "/home/dev/club-website"
    glob := fun _ _ => .ok ["elements/x.html", "scripts/y.js"]
    md5hex := sampleDigest
    writeFile := fun _ _ => none }

/-- The same output directory seen from a package without a name, on a disk
that refuses the write. -/
def sampleEnvUnnamed : Env String :=
  { packageJsonName := none
    dirname := "/srv/site"
    glob := fun _ _ => .ok ["elements/x.html", "scripts/y.js"]
    md5hex := sampleDigest
    writeFile := fun _ _ => some "EACCES" }

/-- An output tree with one script. -/
def sampleTree : Tree := [("scripts/app.js", "console.log(1)"), ("index.html", "<html>")]

/-- A glob library for the samples: the names matching the precache pattern,
in listing order. -/
def sampleLib (_pattern _cwd : String) (names : List String) : Except String (List String) :=
  .ok (names.filter matchesPrecacheGlob)

/-- A build of `gulp default` in which every task succeeds. -/
def sampleTrace : List Event :=
  [ .start "clean", .finish "clean",
    .start "copy", .start "app-styles", .finish "app-styles", .finish "copy",
    .start "element-styles", .start "roster-styles", .finish "element-styles",
    .finish "roster-styles",
    .start "app-images", .start "roster-images", .start "fonts", .start "html",
    .start "generate-roster", .finish "fonts", .finish "generate-roster", .finish "html",
    .finish "roster-images", .finish "app-images",
    .start "resize-profiles", .finish "resize-profiles",
    .start "vulcanize", .finish "vulcanize",
    .start "rename-index", .finish "rename-index",
    .start "remove-old-build-index", .finish "remove-old-build-index" ]

/-- A build of `gulp default` in which the style task of the application fails. -/
def failingTrace : List Event :=
  [ .start "clean", .finish "clean",
    .start "copy", .start "app-styles", .finish "copy", .fail "app-styles" ]

/-- The state a build is left in when a task of the first group has failed. -/
def abortedBuild : Sched :=
  { pending := defaultSequence.tail, waiting := [], running := [], failed := true }

/-- The state of a build that went through every stage. -/
def finishedBuild : Sched :=
  { pending := [], waiting := [], running := [], failed := false }

/-- A stand-in for the serializer of the roster in the sample world. -/
def sampleStringify (members : List String) : String :=
  "[" ++ joinWith ", " (members.map jsonString) ++ "]"

/-- A roster directory with two entries. -/
def sampleWorld : World :=
  { browserSyncActive := false
    rosterPaths := ["app/roster/jane", "app/roster/a.b.c"]
    stringifyObject := sampleStringify }

/-! ## Theorems: the manifest generator -/

theorem manifestPath_eq : manifestPath = "dist/cache-config.json" := by decide

theorem cacheConfig_ok {ε : Type} (env : Env ε) (files : List String)
    (h : env.glob precachePattern "dist" = .ok files) :
    cacheConfig env =
      { callback := env.writeFile "dist/cache-config.json" (buildManifest env files).toJson
        manifest := some (buildManifest env files)
        writes := [("dist/cache-config.json", (buildManifest env files).toJson)] } := by
  have hp : pathJoin ["dist", "cache-config.json"] = "dist/cache-config.json" := by decide
  unfold cacheConfig
  simp only [h, hp]

theorem cacheConfig_error {ε : Type} (env : Env ε) (e : ε)
    (h : env.glob precachePattern "dist" = .error e) :
    cacheConfig env = { callback := some e, manifest := none, writes := [] } := by
  unfold cacheConfig
  simp only [h]

/-- C1: when the enumeration of the output directory returns `files`, the
manifest `cache-config` builds and hands to the write has as `precache` list
exactly `files`, in order, followed by `index.html`, `./` and the polyfill
bundle. -/
theorem cacheConfig_precache {ε : Type} (env : Env ε) (files : List String)
    (h : env.glob precachePattern "dist" = .ok files) :
    ∃ m : Manifest, (cacheConfig env).manifest = some m
      ∧ (cacheConfig env).writes = [("dist/cache-config.json", m.toJson)]
      ∧ m.precache = files ++ ["index.html", "./",
          "bower_components/webcomponentsjs/webcomponents-lite.min.js"] := by
  refine ⟨buildManifest env files, ?_, ?_, rfl⟩
  · rw [cacheConfig_ok env files h]
  · rw [cacheConfig_ok env files h]

/-- Witness of C1: the scenario with `elements/x.html` and `scripts/y.js`. -/
theorem cacheConfig_precache_witness :
    ∃ m : Manifest, (cacheConfig sampleEnv).manifest = some m
      ∧ (cacheConfig sampleEnv).writes = [("dist/cache-config.json", m.toJson)]
      ∧ m.precache = ["elements/x.html", "scripts/y.js"] ++ ["index.html", "./",
          "bower_components/webcomponentsjs/webcomponents-lite.min.js"] :=
  cacheConfig_precache sampleEnv ["elements/x.html", "scripts/y.js"] rfl

/-- C2: in the manifest `cache-config` writes, `precacheFingerprint` is the
digest of the JSON text of the `precache` list of that same manifest; two runs
whose enumerations return the same list, with the same digest function, write
the same fingerprint whatever the package name, the directory or the outcome
of the write. -/
theorem fingerprint_digest {ε : Type} (env1 env2 : Env ε) (files : List String)
    (h1 : env1.glob precachePattern "dist" = .ok files)
    (h2 : env2.glob precachePattern "dist" = .ok files)
    (hd : env1.md5hex = env2.md5hex) :
    ∃ m1 m2 : Manifest,
      (cacheConfig env1).manifest = some m1 ∧ (cacheConfig env2).manifest = some m2
      ∧ (cacheConfig env1).writes = [("dist/cache-config.json", m1.toJson)]
      ∧ (cacheConfig env2).writes = [("dist/cache-config.json", m2.toJson)]
      ∧ m1.precache = files ++ fixedEntries ∧ m2.precache = files ++ fixedEntries
      ∧ m1.precacheFingerprint = env1.md5hex (jsonStringArray m1.precache)
      ∧ m2.precacheFingerprint = env2.md5hex (jsonStringArray m2.precache)
      ∧ m1.precacheFingerprint = m2.precacheFingerprint := by
  refine ⟨buildManifest env1 files, buildManifest env2 files, ?_, ?_, ?_, ?_, rfl, rfl, rfl, rfl,
    ?_⟩
  · rw [cacheConfig_ok env1 files h1]
  · rw [cacheConfig_ok env2 files h2]
  · rw [cacheConfig_ok env1 files h1]
  · rw [cacheConfig_ok env2 files h2]
  · simp only [buildManifest, hd]

/-- Witness of C2: two packages with different cache identifiers over the same
enumeration. -/
theorem fingerprint_digest_witness :
    ∃ m1 m2 : Manifest,
      (cacheConfig sampleEnv).manifest = some m1
      ∧ (cacheConfig sampleEnvUnnamed).manifest = some m2
      ∧ (cacheConfig sampleEnv).writes = [("dist/cache-config.json", m1.toJson)]
      ∧ (cacheConfig sampleEnvUnnamed).writes = [("dist/cache-config.json", m2.toJson)]
      ∧ m1.precache = ["elements/x.html", "scripts/y.js"] ++ fixedEntries
      ∧ m2.precache = ["elements/x.html", "scripts/y.js"] ++ fixedEntries
      ∧ m1.precacheFingerprint = sampleEnv.md5hex (jsonStringArray m1.precache)
      ∧ m2.precacheFingerprint = sampleEnvUnnamed.md5hex (jsonStringArray m2.precache)
      ∧ m1.precacheFingerprint = m2.precacheFingerprint :=
  fingerprint_digest sampleEnv sampleEnvUnnamed ["elements/x.html", "scripts/y.js"] rfl rfl rfl

theorem setContent_paths (t : Tree) (path content : String) :
    (t.setContent path content).paths = t.paths := by
  unfold Tree.setContent Tree.paths
  rw [List.map_map]
  apply List.map_congr_left
  intro f _
  by_cases h : f.1 = path <;> simp [h]

theorem cacheConfig_onTree_congr {ε : Type} (env : Env ε)
    (lib : String → String → List String → Except ε (List String)) (t1 t2 : Tree)
    (h : t1.paths = t2.paths) :
    cacheConfig (env.onTree lib t1) = cacheConfig (env.onTree lib t2) := by
  unfold Env.onTree
  rw [h]

/-- C3, refuted as stated: the tree with one script, and the same tree with
the content of that script changed. The path matches the precache pattern, the
trees differ, and with every digest and every glob library the two runs build
the same manifest, fingerprint included. -/
theorem fingerprint_ignores_content :
    matchesPrecacheGlob "scripts/app.js" = true
    ∧ sampleTree.setContent "scripts/app.js" "console.log(2)" ≠ sampleTree
    ∧ (sampleTree.setContent "scripts/app.js" "console.log(2)").paths = sampleTree.paths
    ∧ (∀ (env : Env String)
          (lib : String → String → List String → Except String (List String)),
        (cacheConfig (env.onTree lib
            (sampleTree.setContent "scripts/app.js" "console.log(2)"))).manifest
          = (cacheConfig (env.onTree lib sampleTree)).manifest)
    ∧ ((cacheConfig (sampleEnv.onTree sampleLib sampleTree)).manifest.map
          (fun m => m.precache)
        = some ["scripts/app.js", "index.html", "./",
            "bower_components/webcomponentsjs/webcomponents-lite.min.js"]) := by
  refine ⟨by decide, by decide, by decide, ?_, by decide⟩
  intro env lib
  rw [cacheConfig_onTree_congr env lib _ sampleTree (setContent_paths _ _ _)]

/-- C3, amended: two output trees with the same paths, whatever the contents
of their files, get the same run of `cache-config`: same manifest, same
fingerprint, same write. The fingerprint is the digest of the enumerated path
list and of nothing else, so a change of fingerprint needs a change of the
enumerated paths. -/
theorem fingerprint_paths_only {ε : Type} (env : Env ε)
    (lib : String → String → List String → Except ε (List String)) (t1 t2 : Tree)
    (h : t1.paths = t2.paths) :
    cacheConfig (env.onTree lib t1) = cacheConfig (env.onTree lib t2)
    ∧ (∀ files, lib precachePattern "dist" t1.paths = .ok files →
        ((cacheConfig (env.onTree lib t2)).manifest.map (fun m => m.precacheFingerprint)
          = some (env.md5hex (jsonStringArray (files ++ fixedEntries))))) := by
  refine ⟨cacheConfig_onTree_congr env lib t1 t2 h, ?_⟩
  intro files hf
  have hg : (env.onTree lib t2).glob precachePattern "dist" = .ok files := by
    simp only [Env.onTree, ← h, hf]
  rw [cacheConfig_ok _ files hg]
  rfl

/-- Witness of the amended C3: the sample tree before and after a change of
content. -/
theorem fingerprint_paths_only_witness :
    cacheConfig (sampleEnv.onTree sampleLib
        (sampleTree.setContent "scripts/app.js" "console.log(2)"))
      = cacheConfig (sampleEnv.onTree sampleLib sampleTree)
    ∧ (∀ files, sampleLib precachePattern "dist"
          (sampleTree.setContent "scripts/app.js" "console.log(2)").paths = .ok files →
        ((cacheConfig (sampleEnv.onTree sampleLib sampleTree)).manifest.map
            (fun m => m.precacheFingerprint)
          = some (sampleEnv.md5hex (jsonStringArray (files ++ fixedEntries))))) :=
  fingerprint_paths_only sampleEnv sampleLib _ sampleTree (by decide)

/-- C4: `cache-config` hands failures on. When the enumeration reports an
error the callback gets exactly that error and no write is made; when it
succeeds there is exactly one write, of `dist/cache-config.json`, and the
callback gets exactly what that write reports. -/
theorem cacheConfig_propagates {ε : Type} (env : Env ε) :
    (∀ e, env.glob precachePattern "dist" = .error e →
        (cacheConfig env).callback = some e ∧ (cacheConfig env).writes = [])
    ∧ (∀ files, env.glob precachePattern "dist" = .ok files →
        (cacheConfig env).writes
          = [("dist/cache-config.json", (buildManifest env files).toJson)]
        ∧ (cacheConfig env).callback
          = env.writeFile "dist/cache-config.json" (buildManifest env files).toJson) := by
  constructor
  · intro e h
    rw [cacheConfig_error env e h]
    exact ⟨rfl, rfl⟩
  · intro files h
    rw [cacheConfig_ok env files h]
    exact ⟨rfl, rfl⟩

/-! ## Theorems: lint, task graph, destinations -/

/-- C5: the stream `jshintTask` builds carries the failing reporter exactly
when the dev server is not active; with the server active a violation is
printed and the stream does not fail, with the server inactive a violation is
printed and fails the stream. The task `jshint` returns that stream. -/
theorem jshintTask_fails_unless_serving (w : World) (src : List String) :
    ("fail" ∈ (jshintTask w src).reporters ↔ w.browserSyncActive = false)
    ∧ (w.browserSyncActive = true →
        lint (jshintTask w src) true = { reported := true, failed := false })
    ∧ (w.browserSyncActive = false →
        lint (jshintTask w src) true = { reported := true, failed := true })
    ∧ lint (jshintTask w src) false = { reported := false, failed := false }
    ∧ (∃ t ∈ gulpfile, t.name = "jshint"
        ∧ ∃ globs, t.body w = .streams [jshintTask w globs]) := by
  refine ⟨?_, ?_, ?_, ?_, ?_⟩
  · cases hb : w.browserSyncActive <;>
      simp [jshintTask, Stream.reporters, Stage.reporters, hb]
  · intro hb
    simp [lint, jshintTask, Stream.reporters, Stage.reporters, hb]
  · intro hb
    simp [lint, jshintTask, Stream.reporters, Stage.reporters, hb]
  · simp [lint]
  · exact ⟨gulpfile.get ⟨6, by decide⟩, List.get_mem _ _ _, rfl, _, rfl⟩

theorem prereq_depth {a b : String} (h : Prereq a b) : depth b < depth a := by
  have key : ∀ t ∈ gulpfile, ∀ d ∈ t.deps, depth d < depth t.name := by decide
  obtain ⟨t, ht, rfl, hb⟩ := h
  exact key t ht b hb

theorem transGen_prereq_depth {a b : String} (h : Relation.TransGen Prereq a b) :
    depth b < depth a := by
  induction h with
  | single h => exact prereq_depth h
  | tail _ h ih => exact lt_trans (prereq_depth h) ih

theorem named_eq (w : World) :
    gulpfile.flatMap (fun t => (t.body w).named)
      = serveWatches.flatMap Watch.tasks ++ defaultSequence.flatten := rfl

/-- C8: the prerequisite relation of the declared tasks has no cycle, and
every name used as a prerequisite, in the run sequence of `default` or as a
watch trigger is the name of a declared task; the prerequisites are those of
`serve` (seven), `default`, `serve:dist` and `deploy`. -/
theorem task_graph_well_formed :
    (∀ n, ¬ Relation.TransGen Prereq n n)
    ∧ (∀ t ∈ gulpfile, ∀ d ∈ t.deps, d ∈ taskNames)
    ∧ (∀ w : World, ∀ t ∈ gulpfile, ∀ n ∈ (t.body w).named, n ∈ taskNames)
    ∧ (∀ n ∈ defaultSequence.flatten, n ∈ taskNames)
    ∧ (∀ n ∈ serveWatches.flatMap Watch.tasks, n ∈ taskNames)
    ∧ taskNames.Nodup
    ∧ (gulpfile.filter (fun t => t.deps ≠ [])).map (fun t => (t.name, t.deps))
        = [ ("serve", ["app-styles", "element-styles", "roster-styles", "app-images",
              "roster-images", "resize-profiles", "generate-roster"]),
            ("serve:dist", ["default"]), ("deploy", ["default"]), ("default", ["clean"]) ] := by
  have hseq : ∀ n ∈ defaultSequence.flatten, n ∈ taskNames := by decide
  have hwatch : ∀ n ∈ serveWatches.flatMap Watch.tasks, n ∈ taskNames := by decide
  refine ⟨?_, by decide, ?_, hseq, hwatch, by decide, by decide⟩
  · intro n h
    exact lt_irrefl _ (transGen_prereq_depth h)
  · intro w t ht n hn
    have hmem : n ∈ gulpfile.flatMap (fun t => (t.body w).named) :=
      List.mem_flatMap.mpr ⟨t, ht, hn⟩
    rw [named_eq, List.mem_append] at hmem
    rcases hmem with h | h
    · exact hwatch n h
    · exact hseq n h

theorem targets_eq (w : World) :
    gulpfile.flatMap (fun t => (t.body w).targets)
      = [ ".tmp/styles", "dist/styles", ".tmp/elements", "dist/elements", ".tmp/roster",
          "dist/roster", "dist/roster/", "dist/roster/", "dist/roster/", "dist/images",
          "dist/roster", "dist", "dist/bower_components", "dist/roster", "dist/elements",
          "dist/elements/bootstrap", "dist/sw-toolbox", "dist/elements", "dist/fonts", "dist",
          "dist/", "dist/", "dist/index.build.html", "dist/cache-config.json", ".tmp", "dist",
          ".tmp/roster/", "dist/roster/" ] := rfl
/-! ## Lemmas on path normalisation -/

theorem splitSlash_ne_nil (p : List Char) : splitSlash p ≠ [] := by
  induction p with
  | nil => simp [splitSlash]
  | cons c cs ih =>
    unfold splitSlash
    split
    · simp
    · split
      · simp
      · simp

theorem splitSlash_append (a b : List Char) :
    splitSlash (a ++ slash :: b) = splitSlash a ++ splitSlash b := by
  induction a with
  | nil => simp [splitSlash]
  | cons c cs ih =>
    rw [List.cons_append]
    by_cases hc : c = slash
    · simp only [splitSlash, hc, if_true, ih, List.cons_append]
    · have h1 : splitSlash (c :: cs) = match splitSlash cs with
          | [] => [[c]]
          | p :: ps => (c :: p) :: ps := by
        rw [splitSlash]; simp only [hc, if_false]
      have h2 : splitSlash (c :: (cs ++ slash :: b)) = match splitSlash (cs ++ slash :: b) with
          | [] => [[c]]
          | p :: ps => (c :: p) :: ps := by
        rw [splitSlash]; simp only [hc, if_false]
      rw [h1, h2, ih]
      cases hs : splitSlash cs with
      | nil => exact absurd hs (splitSlash_ne_nil cs)
      | cons p ps => simp

theorem splitSlash_slash_free (p : List Char) : ∀ s ∈ splitSlash p, slash ∉ s := by
  induction p with
  | nil => simp [splitSlash]
  | cons c cs ih =>
    intro s hs
    by_cases hc : c = slash
    · simp only [splitSlash, hc, if_true, List.mem_cons] at hs
      rcases hs with rfl | hs
      · simp
      · exact ih s hs
    · rw [splitSlash] at hs
      simp only [hc, if_false] at hs
      cases hsp : splitSlash cs with
      | nil => exact absurd hsp (splitSlash_ne_nil cs)
      | cons q qs =>
        rw [hsp] at hs ih
        simp only [List.mem_cons] at hs
        rcases hs with rfl | hs
        · intro hmem
          rcases List.mem_cons.mp hmem with h | h
          · exact hc h.symm
          · exact ih q (List.mem_cons_self _ _) h
        · exact ih s (List.mem_cons_of_mem _ hs)

theorem splitSlash_of_slash_free (s : List Char) (h : slash ∉ s) : splitSlash s = [s] := by
  induction s with
  | nil => simp [splitSlash]
  | cons c cs ih =>
    have hc : c ≠ slash := fun e => h (e ▸ List.mem_cons_self _ _)
    have hcs : slash ∉ cs := fun e => h (List.mem_cons_of_mem _ e)
    rw [splitSlash]
    simp only [hc, if_false, ih hcs]

theorem splitSlash_joinSegments (segs : List (List Char)) (hne : segs ≠ [])
    (hfree : ∀ s ∈ segs, slash ∉ s) : splitSlash (joinSegments segs) = segs := by
  induction segs with
  | nil => exact absurd rfl hne
  | cons s rest ih =>
    cases rest with
    | nil =>
      simp only [joinSegments]
      exact splitSlash_of_slash_free s (hfree s (List.mem_cons_self _ _))
    | cons t rest2 =>
      simp only [joinSegments]
      rw [splitSlash_append, splitSlash_of_slash_free s (hfree s (List.mem_cons_self _ _)),
        ih (by simp) (fun x hx => hfree x (List.mem_cons_of_mem _ hx))]
      rfl

theorem foldl_normStep_plain (b : Bool) (segs acc : List (List Char))
    (h : [dot, dot] ∉ segs) :
    segs.foldl (normStep b) acc
      = (segs.filter (fun s => decide (s ≠ [] ∧ s ≠ [dot]))).reverse ++ acc := by
  induction segs generalizing acc with
  | nil => simp
  | cons s rest ih =>
    have hs : s ≠ [dot, dot] := fun e => h (e ▸ List.mem_cons_self _ _)
    have hrest : [dot, dot] ∉ rest := fun e => h (List.mem_cons_of_mem _ e)
    rw [List.foldl_cons, ih _ hrest]
    by_cases hk : s = [] ∨ s = [dot]
    · have hf : decide (s ≠ [] ∧ s ≠ [dot]) = false := by
        rcases hk with h1 | h1 <;> simp [h1]
      simp only [normStep, hk, if_true, List.filter_cons, hf]
      simp
    · have hf : decide (s ≠ [] ∧ s ≠ [dot]) = true := by
        push_neg at hk
        simp [hk.1, hk.2]
      simp only [normStep, hk, hs, if_false, List.filter_cons, hf, if_true]
      simp

theorem normSegments_plain (b : Bool) (p : List Char) (h : [dot, dot] ∉ splitSlash p) :
    normSegments b p = keptSegments p := by
  unfold normSegments keptSegments
  rw [foldl_normStep_plain b _ [] h]
  simp

theorem keptSegments_def (p : List Char) :
    keptSegments p = (splitSlash p).filter (fun s => decide (s ≠ [] ∧ s ≠ [dot])) := rfl

theorem keptSegments_append (a b : List Char) :
    keptSegments (a ++ slash :: b) = keptSegments a ++ keptSegments b := by
  unfold keptSegments
  rw [splitSlash_append, List.filter_append]

theorem keptSegments_props (p : List Char) :
    ∀ s ∈ keptSegments p, s ≠ [] ∧ s ≠ [dot] ∧ slash ∉ s := by
  intro s hs
  unfold keptSegments at hs
  rw [List.mem_filter] at hs
  have h := of_decide_eq_true hs.2
  exact ⟨h.1, h.2, splitSlash_slash_free p s hs.1⟩

theorem joinSegments_ne_nil (segs : List (List Char)) (hne : segs ≠ [])
    (h : ∀ s ∈ segs, s ≠ []) : joinSegments segs ≠ [] := by
  cases segs with
  | nil => exact absurd rfl hne
  | cons s rest =>
    cases rest with
    | nil => simpa [joinSegments] using h s (List.mem_cons_self _ _)
    | cons t rest2 =>
      simp only [joinSegments]
      intro e
      have := congrArg List.length e
      simp at this

theorem filter_kept_self (segs : List (List Char))
    (h : ∀ s ∈ segs, s ≠ [] ∧ s ≠ [dot]) :
    segs.filter (fun s => decide (s ≠ [] ∧ s ≠ [dot])) = segs := by
  rw [List.filter_eq_self]
  intro s hs
  exact decide_eq_true (h s hs)

/-- Normalising a relative path without `..` components and re-reading the
result gives the kept components of the path. -/
theorem normSegments_pathNormalize (p : String) (hrel : p.data.head? ≠ some slash)
    (hpar : [dot, dot] ∉ splitSlash p.data) (hk : keptSegments p.data ≠ []) :
    normSegments true (pathNormalize p).data = keptSegments p.data := by
  have hne : p.data ≠ [] := by
    intro e
    rw [e] at hk
    exact hk (by decide)
  have hprops := keptSegments_props p.data
  have hsub : ∀ s ∈ keptSegments p.data, s ∈ splitSlash p.data := by
    intro s hs
    unfold keptSegments at hs
    exact (List.mem_filter.mp hs).1
  have hbody : joinSegments (keptSegments p.data) ≠ [] :=
    joinSegments_ne_nil _ hk (fun s hs => (hprops s hs).1)
  have hsplit : splitSlash (joinSegments (keptSegments p.data)) = keptSegments p.data :=
    splitSlash_joinSegments _ hk (fun s hs => (hprops s hs).2.2)
  have hpar2 : [dot, dot] ∉ keptSegments p.data := fun h => hpar (hsub _ h)
  have hfix : (keptSegments p.data).filter (fun s => decide (s ≠ [] ∧ s ≠ [dot]))
      = keptSegments p.data :=
    filter_kept_self _ (fun s hs => ⟨(hprops s hs).1, (hprops s hs).2.1⟩)
  unfold pathNormalize
  simp only [hne, if_false, hrel, decide_False, Bool.not_false, not_false_eq_true, and_true,
    normSegments_plain true p.data hpar, hbody, ne_eq, true_and]
  by_cases ht : p.data.getLast? = some slash
  · simp only [ht, if_true]
    have hp : [dot, dot] ∉ splitSlash (joinSegments (keptSegments p.data) ++ [slash]) := by
      rw [splitSlash_append, hsplit]
      intro h
      rcases List.mem_append.mp h with h | h
      · exact hpar2 h
      · revert h; decide
    rw [normSegments_plain true _ hp, keptSegments_append,
      keptSegments_def (joinSegments (keptSegments p.data)), hsplit, hfix]
    exact List.append_nil _
  · simp only [ht, if_false]
    have hp : [dot, dot] ∉ splitSlash (joinSegments (keptSegments p.data)) := by
      rw [hsplit]; exact hpar2
    rw [normSegments_plain true _ hp, keptSegments_def (joinSegments (keptSegments p.data)),
      hsplit]
    exact hfix

theorem pathJoin_of_filter (parts : List String)
    (h : parts.filter (fun s => decide (s.data ≠ [])) ≠ []) :
    pathJoin parts
      = pathNormalize (joinWith "/" (parts.filter (fun s => decide (s.data ≠ [])))) := by
  unfold pathJoin
  split
  · next heq => exact absurd heq h
  · rfl

theorem noParent_append (a b : List Char) (ha : [dot, dot] ∉ splitSlash a)
    (hb : [dot, dot] ∉ splitSlash b) : [dot, dot] ∉ splitSlash (a ++ slash :: b) := by
  rw [splitSlash_append]
  intro h
  rcases List.mem_append.mp h with h | h
  · exact ha h
  · exact hb h

theorem head_append_ne_slash (a b : List Char) (h : a.head? ≠ some slash) (ha : a ≠ []) :
    (a ++ b).head? ≠ some slash := by
  cases a with
  | nil => exact absurd rfl ha
  | cons c cs => simpa using h

/-- Components of a write destination `root/<stylesPath>` for a directory name
`root` and a path without `..` components. -/
theorem normSegments_under (root : String) (sp : String)
    (hroot : splitSlash root.data = [root.data])
    (hkeep : keptSegments root.data = [root.data])
    (hdd : root.data ≠ [dot, dot])
    (hsp : [dot, dot] ∉ splitSlash sp.data) :
    normSegments true (root ++ "/" ++ sp).data = root.data :: keptSegments sp.data := by
  have hd : (root ++ "/" ++ sp).data = root.data ++ slash :: sp.data := by
    simp only [String.data_append, List.append_assoc]
    rfl
  have hr : [dot, dot] ∉ splitSlash root.data := by
    rw [hroot]
    simpa using Ne.symm hdd
  rw [hd, normSegments_plain true _ (noParent_append _ _ hr hsp), keptSegments_append, hkeep]
  rfl

/-- Components of a read glob `path.join("app", stylesPath, src)` when neither
argument has a `..` component. -/
theorem normSegments_pathJoin_app (sp src : String)
    (hsp : [dot, dot] ∉ splitSlash sp.data) (hsrc : [dot, dot] ∉ splitSlash src.data) :
    normSegments true (pathJoin ["app", sp, src]).data
      = "app".data :: (keptSegments sp.data ++ keptSegments src.data) := by
  have happ : [dot, dot] ∉ splitSlash "app".data := by decide
  have hkapp : keptSegments "app".data = ["app".data] := by decide
  have hhead : "app".data.head? ≠ some slash := by decide
  have hnil : keptSegments [] = [] := by decide
  have hsl : "/".data = [slash] := rfl
  by_cases h1 : sp.data = [] <;> by_cases h2 : src.data = []
  · have hf : ["app", sp, src].filter (fun s => decide (s.data ≠ [])) = ["app"] := by
      simp [List.filter, h1, h2]
    rw [pathJoin_of_filter _ (by rw [hf]; simp), hf, h1, h2, hnil]
    decide
  · have hf : ["app", sp, src].filter (fun s => decide (s.data ≠ [])) = ["app", src] := by
      simp [List.filter, h1, h2]
    have hd : (joinWith "/" ["app", src]).data = "app".data ++ slash :: src.data := by
      simp only [joinWith, String.data_append, List.append_assoc, hsl]
      rfl
    rw [pathJoin_of_filter _ (by rw [hf]; simp), hf,
      normSegments_pathNormalize _ (by rw [hd]; exact head_append_ne_slash _ _ hhead (by decide))
        (by rw [hd]; exact noParent_append _ _ happ hsrc)
        (by rw [hd, keptSegments_append, hkapp]; simp),
      hd, keptSegments_append, hkapp, h1, hnil]
    rfl
  · have hf : ["app", sp, src].filter (fun s => decide (s.data ≠ [])) = ["app", sp] := by
      simp [List.filter, h1, h2]
    have hd : (joinWith "/" ["app", sp]).data = "app".data ++ slash :: sp.data := by
      simp only [joinWith, String.data_append, List.append_assoc, hsl]
      rfl
    rw [pathJoin_of_filter _ (by rw [hf]; simp), hf,
      normSegments_pathNormalize _ (by rw [hd]; exact head_append_ne_slash _ _ hhead (by decide))
        (by rw [hd]; exact noParent_append _ _ happ hsp)
        (by rw [hd, keptSegments_append, hkapp]; simp),
      hd, keptSegments_append, hkapp, h2, hnil]
    simp
  · have hf : ["app", sp, src].filter (fun s => decide (s.data ≠ [])) = ["app", sp, src] := by
      simp [List.filter, h1, h2]
    have hd : (joinWith "/" ["app", sp, src]).data
        = "app".data ++ slash :: (sp.data ++ slash :: src.data) := by
      simp only [joinWith, String.data_append, List.append_assoc, hsl]
      rfl
    rw [pathJoin_of_filter _ (by rw [hf]; simp), hf,
      normSegments_pathNormalize _ (by rw [hd]; exact head_append_ne_slash _ _ hhead (by decide))
        (by rw [hd]; exact noParent_append _ _ happ (noParent_append _ _ hsp hsrc))
        (by rw [hd, keptSegments_append, hkapp]; simp),
      hd, keptSegments_append, keptSegments_append, hkapp]
    rfl

/-! ## Lemmas on the scheduler -/

theorem Sched.run_append (s : Sched) (xs ys : List Event) :
    s.run (xs ++ ys) = (s.run xs).bind (fun s1 => s1.run ys) := by
  induction xs generalizing s with
  | nil => rfl
  | cons e es ih =>
    simp only [List.cons_append, Sched.run]
    cases s.step e with
    | none => rfl
    | some s1 => exact ih s1

theorem SchedInv.start_step {past : List (List String)} {cur : List String}
    {evs : List Event} {s : Sched} {t : String}
    (inv : SchedInv past cur evs s) (hf : s.failed = false) (ht : t ∈ s.waiting) :
    SchedInv past cur (evs ++ [Event.start t])
      { s with waiting := s.waiting.erase t, running := t :: s.running } := by
  have hnostart : Event.start t ∉ evs := fun h => (inv.started t h).2 ht
  have hnotrun : t ∉ s.running := fun h => hnostart (inv.running_started t h)
  refine ⟨?_, ?_, ?_, ?_, ?_, ?_, ?_, ?_, ?_⟩
  · intro a ha
    exact List.mem_append_left _ (inv.finished_past a ha)
  · intro a ha
    exact inv.waiting_cur a (List.mem_of_mem_erase ha)
  · intro a ha
    rcases List.mem_cons.mp ha with rfl | h
    · exact inv.waiting_cur _ ht
    · exact inv.running_cur a h
  · intro _ a ha
    rcases inv.progress hf a ha with h | h | h
    · by_cases e : a = t
      · exact Or.inr (Or.inl (e ▸ List.mem_cons_self _ _))
      · exact Or.inl ((List.mem_erase_of_ne e).mpr h)
    · exact Or.inr (Or.inl (List.mem_cons_of_mem _ h))
    · exact Or.inr (Or.inr (List.mem_append_left _ h))
  · intro a ha
    rcases List.mem_append.mp ha with h | h
    · exact ⟨(inv.started a h).1, fun hm => (inv.started a h).2 (List.mem_of_mem_erase hm)⟩
    · have e : a = t := by simpa using h
      subst e
      exact ⟨Or.inr (inv.waiting_cur _ ht), inv.waiting_nodup.not_mem_erase⟩
  · intro a ha
    rcases List.mem_cons.mp ha with rfl | h
    · exact List.mem_append_right _ (List.mem_singleton_self _)
    · exact List.mem_append_left _ (inv.running_started a h)
  · intro a ha
    have h : Event.finish a ∈ evs := by simpa using ha
    refine ⟨List.mem_append_left _ (inv.finished a h).1, ?_⟩
    intro hm
    rcases List.mem_cons.mp hm with rfl | h2
    · exact hnostart (inv.finished _ h).1
    · exact (inv.finished a h).2 h2
  · exact inv.waiting_nodup.erase t
  · exact List.nodup_cons.mpr ⟨hnotrun, inv.running_nodup⟩

theorem SchedInv.finish_step {past : List (List String)} {cur : List String}
    {evs : List Event} {s : Sched} {t : String}
    (inv : SchedInv past cur evs s) (ht : t ∈ s.running) :
    SchedInv past cur (evs ++ [Event.finish t]) { s with running := s.running.erase t } := by
  refine ⟨?_, ?_, ?_, ?_, ?_, ?_, ?_, ?_, ?_⟩
  · intro a ha
    exact List.mem_append_left _ (inv.finished_past a ha)
  · exact inv.waiting_cur
  · intro a ha
    exact inv.running_cur a (List.mem_of_mem_erase ha)
  · intro hf a ha
    rcases inv.progress hf a ha with h | h | h
    · exact Or.inl h
    · by_cases e : a = t
      · exact Or.inr (Or.inr (e ▸ List.mem_append_right _ (List.mem_singleton_self _)))
      · exact Or.inr (Or.inl ((List.mem_erase_of_ne e).mpr h))
    · exact Or.inr (Or.inr (List.mem_append_left _ h))
  · intro a ha
    have h : Event.start a ∈ evs := by simpa using ha
    exact inv.started a h
  · intro a ha
    exact List.mem_append_left _ (inv.running_started a (List.mem_of_mem_erase ha))
  · intro a ha
    rcases List.mem_append.mp ha with h | h
    · exact ⟨List.mem_append_left _ (inv.finished a h).1,
        fun hm => (inv.finished a h).2 (List.mem_of_mem_erase hm)⟩
    · have e : a = t := by simpa using h
      subst e
      exact ⟨List.mem_append_left _ (inv.running_started _ ht), inv.running_nodup.not_mem_erase⟩
  · exact inv.waiting_nodup
  · exact inv.running_nodup.erase t

theorem SchedInv.fail_step {past : List (List String)} {cur : List String}
    {evs : List Event} {s : Sched} {t : String}
    (inv : SchedInv past cur evs s) :
    SchedInv past cur (evs ++ [Event.fail t])
      { s with running := s.running.erase t, failed := true } := by
  refine ⟨?_, ?_, ?_, ?_, ?_, ?_, ?_, ?_, ?_⟩
  · intro a ha
    exact List.mem_append_left _ (inv.finished_past a ha)
  · exact inv.waiting_cur
  · intro a ha
    exact inv.running_cur a (List.mem_of_mem_erase ha)
  · intro hf
    exact absurd hf (by simp)
  · intro a ha
    have h : Event.start a ∈ evs := by simpa using ha
    exact inv.started a h
  · intro a ha
    exact List.mem_append_left _ (inv.running_started a (List.mem_of_mem_erase ha))
  · intro a ha
    have h : Event.finish a ∈ evs := by simpa using ha
    exact ⟨List.mem_append_left _ (inv.finished a h).1,
      fun hm => (inv.finished a h).2 (List.mem_of_mem_erase hm)⟩
  · exact inv.waiting_nodup
  · exact inv.running_nodup.erase t

theorem SchedInv.advance_step {all past : List (List String)} {cur : List String}
    {evs : List Event} {s : Sched} (hall : all = past ++ cur :: s.pending)
    (hnd : all.flatten.Nodup) (inv : SchedInv past cur evs s) :
    ∃ past1 cur1, all = past1 ++ cur1 :: s.advance.pending
      ∧ SchedInv past1 cur1 evs s.advance := by
  unfold Sched.advance
  by_cases hc : s.waiting = [] ∧ s.running = [] ∧ s.failed = false
  · rw [if_pos hc]
    cases hp : s.pending with
    | nil => exact ⟨past, cur, by rw [hall, hp], inv⟩
    | cons g gs =>
      refine ⟨past ++ [cur], g, by rw [hall, hp]; simp, ?_⟩
      have hdone : ∀ t ∈ cur, Event.finish t ∈ evs := by
        intro t ht
        rcases inv.progress hc.2.2 t ht with h | h | h
        · rw [hc.1] at h; exact absurd h (List.not_mem_nil _)
        · rw [hc.2.1] at h; exact absurd h (List.not_mem_nil _)
        · exact h
      have hsplit : all.flatten = (past ++ [cur]).flatten ++ (g ++ gs.flatten) := by
        rw [hall, hp]; simp
      rw [hsplit, List.nodup_append] at hnd
      have hpast : ∀ t ∈ (past ++ [cur]).flatten, Event.finish t ∈ evs := by
        intro t ht
        rw [List.flatten_append, List.mem_append] at ht
        rcases ht with h | h
        · exact inv.finished_past t h
        · exact hdone t (by simpa using h)
      refine ⟨hpast, ?_, ?_, ?_, ?_, ?_, ?_, ?_, ?_⟩
      · intro t ht; exact ht
      · intro t ht; rw [hc.2.1] at ht; exact absurd ht (List.not_mem_nil _)
      · intro _ t ht; exact Or.inl ht
      · intro t ht
        have h1 : t ∈ (past ++ [cur]).flatten := by
          rw [List.flatten_append, List.mem_append]
          rcases (inv.started t ht).1 with h | h
          · exact Or.inl h
          · exact Or.inr (by simpa using h)
        exact ⟨Or.inl h1, fun hg => hnd.2.2 h1 (List.mem_append_left _ hg)⟩
      · intro t ht; rw [hc.2.1] at ht; exact absurd ht (List.not_mem_nil _)
      · intro t ht
        exact ⟨(inv.finished t ht).1, by rw [hc.2.1]; exact List.not_mem_nil _⟩
      · exact (List.nodup_append.mp hnd.2.1).1
      · rw [hc.2.1]; exact List.nodup_nil
  · rw [if_neg hc]
    exact ⟨past, cur, hall, inv⟩

/-- One accepted event keeps the invariant. -/
theorem SchedInv.step {all past : List (List String)} {cur : List String}
    {evs : List Event} {s s1 : Sched} {e : Event} (hall : all = past ++ cur :: s.pending)
    (hnd : all.flatten.Nodup) (inv : SchedInv past cur evs s) (hs : s.step e = some s1) :
    ∃ past1 cur1, all = past1 ++ cur1 :: s1.pending ∧ SchedInv past1 cur1 (evs ++ [e]) s1 := by
  cases e with
  | start t =>
    simp only [Sched.step] at hs
    split at hs
    · next hc =>
      cases hs
      exact ⟨past, cur, hall, inv.start_step hc.1 hc.2⟩
    · cases hs
  | finish t =>
    simp only [Sched.step] at hs
    split at hs
    · next hc =>
      cases hs
      exact SchedInv.advance_step (s := { s with running := s.running.erase t }) hall hnd
        (inv.finish_step hc)
    · cases hs
  | fail t =>
    simp only [Sched.step] at hs
    split at hs
    · cases hs
      exact ⟨past, cur, hall, inv.fail_step⟩
    · cases hs

/-- Every trace the scheduler accepts keeps the invariant. -/
theorem Sched.run_inv (deps : List String) (groups : List (List String))
    (hnd : (deps :: groups).flatten.Nodup) (evs : List Event) (s : Sched)
    (h : Sched.run { pending := groups, waiting := deps, running := [], failed := false } evs
      = some s) :
    ∃ past cur, deps :: groups = past ++ cur :: s.pending ∧ SchedInv past cur evs s := by
  induction evs using List.reverseRecOn generalizing s with
  | nil =>
    simp only [Sched.run, Option.some.injEq] at h
    subst h
    refine ⟨[], deps, rfl, ?_⟩
    have hd : deps.Nodup := by
      rw [List.flatten_cons, List.nodup_append] at hnd
      exact hnd.1
    exact ⟨by simp, fun _ h => h, by simp, fun _ t ht => Or.inl ht, by simp, by simp, by simp,
      hd, List.nodup_nil⟩
  | append_singleton es e ih =>
    rw [Sched.run_append] at h
    cases hr : Sched.run
        { pending := groups, waiting := deps, running := [], failed := false } es with
    | none => rw [hr] at h; cases h
    | some s0 =>
      rw [hr] at h
      simp only [Option.bind, Sched.run] at h
      cases hstep : s0.step e with
      | none => rw [hstep] at h; cases h
      | some s1 =>
        rw [hstep] at h
        simp only [Option.bind, Option.some.injEq] at h
        subst h
        obtain ⟨past, cur, hall, inv⟩ := ih s0 hr
        exact SchedInv.step hall hnd inv hstep

theorem split_unique (all : List (List String)) (hnd : all.flatten.Nodup)
    (p1 p2 : List (List String)) (c1 c2 : List String) (r1 r2 : List (List String))
    (h1 : all = p1 ++ c1 :: r1) (h2 : all = p2 ++ c2 :: r2) (b : String)
    (hb1 : b ∈ c1) (hb2 : b ∈ c2) : p1 = p2 := by
  induction p1 generalizing all p2 with
  | nil =>
    cases p2 with
    | nil => rfl
    | cons x p2t =>
      exfalso
      rw [h1] at h2
      simp only [List.nil_append, List.cons_append, List.cons.injEq] at h2
      rw [h1, List.nil_append, List.flatten_cons, List.nodup_append] at hnd
      have hr : b ∈ r1.flatten := by
        rw [h2.2]
        exact List.mem_flatten.mpr ⟨c2, by simp, hb2⟩
      exact hnd.2.2 hb1 hr
  | cons y p1t ih =>
    cases p2 with
    | nil =>
      exfalso
      rw [h2] at h1
      simp only [List.nil_append, List.cons_append, List.cons.injEq] at h1
      rw [h2, List.nil_append, List.flatten_cons, List.nodup_append] at hnd
      have hr : b ∈ r2.flatten := by
        rw [h1.2]
        exact List.mem_flatten.mpr ⟨c1, by simp, hb1⟩
      exact hnd.2.2 hb2 hr
    | cons x p2t =>
      have h12 := h2
      rw [h1] at h12
      simp only [List.cons_append, List.cons.injEq] at h12
      have hnd2 : (p1t ++ c1 :: r1).flatten.Nodup := by
        rw [h1, List.cons_append, List.flatten_cons, List.nodup_append] at hnd
        exact hnd.2.1
      rw [h12.1, ih (p1t ++ c1 :: r1) hnd2 p2t rfl h12.2]

theorem split_at_index (stages : List (List String)) (j : Nat) (gj : List String)
    (hj : stages[j]? = some gj) : stages = stages.take j ++ gj :: stages.drop (j + 1) := by
  obtain ⟨hlt, hget⟩ := List.getElem?_eq_some.mp hj
  have h := List.drop_eq_getElem_cons hlt
  rw [hget] at h
  rw [← h, List.take_append_drop]

theorem mem_take_flatten (stages : List (List String)) (i j : Nat) (gi : List String)
    (hij : i < j) (hi : stages[i]? = some gi) (a : String) (ha : a ∈ gi) :
    a ∈ (stages.take j).flatten := by
  have h : (stages.take j)[i]? = some gi := by
    rw [List.getElem?_take_of_lt hij, hi]
  exact List.mem_flatten.mpr ⟨gi, List.getElem?_mem h, ha⟩

/-- When a task starts, every task of every earlier stage has finished. -/
theorem Sched.start_after_earlier (deps : List String) (groups : List (List String))
    (hnd : (deps :: groups).flatten.Nodup) (evs : List Event) (s : Sched)
    (h : Sched.run { pending := groups, waiting := deps, running := [], failed := false } evs
      = some s)
    (i j : Nat) (gi gj : List String) (hij : i < j)
    (hi : (deps :: groups)[i]? = some gi) (hj : (deps :: groups)[j]? = some gj)
    (a b : String) (ha : a ∈ gi) (hb : b ∈ gj)
    (pre post : List Event) (hevs : evs = pre ++ Event.start b :: post) :
    Event.finish a ∈ pre := by
  subst hevs
  rw [Sched.run_append] at h
  cases hr : Sched.run
      { pending := groups, waiting := deps, running := [], failed := false } pre with
  | none => rw [hr] at h; cases h
  | some s0 =>
    rw [hr] at h
    simp only [Option.bind, Sched.run] at h
    cases hstep : s0.step (Event.start b) with
    | none => rw [hstep] at h; cases h
    | some s1 =>
      obtain ⟨past, cur, hall, inv⟩ := Sched.run_inv deps groups hnd pre s0 hr
      simp only [Sched.step] at hstep
      split at hstep
      · next hc =>
        have hbcur : b ∈ cur := inv.waiting_cur b hc.2
        have hpast : past = (deps :: groups).take j :=
          split_unique _ hnd _ _ _ _ _ _ hall (split_at_index _ j gj hj) b hbcur hb
        exact inv.finished_past a (hpast ▸ mem_take_flatten _ i j gi hij hi a ha)
      · cases hstep

theorem Sched.run_snoc (s0 s : Sched) (es : List Event) (e : Event)
    (h : s0.run (es ++ [e]) = some s) : ∃ s1, s0.run es = some s1 ∧ s1.step e = some s := by
  rw [Sched.run_append] at h
  cases hr : s0.run es with
  | none => rw [hr] at h; cases h
  | some s1 =>
    rw [hr] at h
    simp only [Option.bind, Sched.run] at h
    cases hstep : s1.step e with
    | none => rw [hstep] at h; cases h
    | some s2 =>
      rw [hstep] at h
      simp only [Option.some.injEq] at h
      exact ⟨s1, rfl, by rw [← h, hstep]⟩

theorem Sched.step_start {s s1 : Sched} {t : String} (h : s.step (Event.start t) = some s1) :
    s.failed = false ∧ t ∈ s.waiting := by
  simp only [Sched.step] at h
  split at h
  · next hc => exact hc
  · cases h

theorem Sched.step_finish {s s1 : Sched} {t : String} (h : s.step (Event.finish t) = some s1) :
    t ∈ s.running := by
  simp only [Sched.step] at h
  split at h
  · next hc => exact hc
  · cases h

/-- No task starts twice and none finishes twice. -/
theorem Sched.at_most_once (deps : List String) (groups : List (List String))
    (hnd : (deps :: groups).flatten.Nodup) (evs : List Event) (s : Sched)
    (h : Sched.run { pending := groups, waiting := deps, running := [], failed := false } evs
      = some s) (t : String) :
    evs.count (Event.start t) ≤ 1 ∧ evs.count (Event.finish t) ≤ 1 := by
  induction evs using List.reverseRecOn generalizing s with
  | nil => simp
  | append_singleton es e ih =>
    obtain ⟨s0, hr, hstep⟩ := Sched.run_snoc _ _ _ _ h
    obtain ⟨past, cur, _, inv⟩ := Sched.run_inv deps groups hnd es s0 hr
    have ih0 := ih s0 hr
    rw [List.count_append, List.count_append, List.count_singleton, List.count_singleton]
    cases e with
    | start u =>
      have h2 : (Event.start u == Event.finish t) = false := by simp
      rw [h2]
      refine ⟨?_, by simpa using ih0.2⟩
      by_cases hu : u = t
      · subst hu
        have hno : Event.start u ∉ es :=
          fun hm => (inv.started u hm).2 (Sched.step_start hstep).2
        rw [List.count_eq_zero_of_not_mem hno]
        simp
      · have h1 : (Event.start u == Event.start t) = false := by simpa using hu
        rw [h1]
        simpa using ih0.1
    | finish u =>
      have h2 : (Event.finish u == Event.start t) = false := by simp
      rw [h2]
      refine ⟨by simpa using ih0.1, ?_⟩
      by_cases hu : u = t
      · subst hu
        have hno : Event.finish u ∉ es :=
          fun hm => (inv.finished u hm).2 (Sched.step_finish hstep)
        rw [List.count_eq_zero_of_not_mem hno]
        simp
      · have h1 : (Event.finish u == Event.finish t) = false := by simpa using hu
        rw [h1]
        simpa using ih0.2
    | fail u =>
      have h1 : (Event.fail u == Event.start t) = false := by simp
      have h2 : (Event.fail u == Event.finish t) = false := by simp
      rw [h1, h2]
      simpa using ih0

/-- In a build that is over without a failure, every task of every stage has
started and has finished. -/
theorem Sched.all_ran (deps : List String) (groups : List (List String))
    (hnd : (deps :: groups).flatten.Nodup) (evs : List Event) (s : Sched)
    (h : Sched.run { pending := groups, waiting := deps, running := [], failed := false } evs
      = some s) (hs : s.succeeded = true) (t : String) (ht : t ∈ (deps :: groups).flatten) :
    Event.start t ∈ evs ∧ Event.finish t ∈ evs := by
  obtain ⟨past, cur, hall, inv⟩ := Sched.run_inv deps groups hnd evs s h
  simp only [Sched.succeeded, decide_eq_true_eq] at hs
  obtain ⟨hp, hw, hr, hf⟩ := hs
  have hfin : Event.finish t ∈ evs := by
    rw [hall, hp, List.flatten_append, List.mem_append] at ht
    rcases ht with ht | ht
    · exact inv.finished_past t ht
    · have htc : t ∈ cur := by simpa using ht
      rcases inv.progress hf t htc with h1 | h1 | h1
      · rw [hw] at h1; exact absurd h1 (List.not_mem_nil _)
      · rw [hr] at h1; exact absurd h1 (List.not_mem_nil _)
      · exact h1
  exact ⟨(inv.finished t hfin).1, hfin⟩

/-- Only tasks of the stages ever start. -/
theorem Sched.started_mem (deps : List String) (groups : List (List String))
    (hnd : (deps :: groups).flatten.Nodup) (evs : List Event) (s : Sched)
    (h : Sched.run { pending := groups, waiting := deps, running := [], failed := false } evs
      = some s) (t : String) (ht : Event.start t ∈ evs) : t ∈ (deps :: groups).flatten := by
  obtain ⟨past, cur, hall, inv⟩ := Sched.run_inv deps groups hnd evs s h
  rw [hall, List.flatten_append, List.flatten_cons, List.mem_append, List.mem_append]
  rcases (inv.started t ht).1 with h1 | h1
  · exact Or.inl h1
  · exact Or.inr (Or.inl h1)

theorem defaultStages_nodup : defaultStages.flatten.Nodup := by decide

/-! ## Theorems: the default build -/

theorem defaultBuild_eq :
    defaultBuild
      = { pending := defaultSequence, waiting := defaultTask.deps, running := [],
          failed := false } := rfl

theorem defaultStages_eq : defaultStages = defaultTask.deps :: defaultSequence := rfl

theorem sequence_stage (b : String) (hb : b ∈ defaultSequence.flatten) :
    ∃ j gj, 0 < j ∧ defaultStages[j]? = some gj ∧ b ∈ gj := by
  obtain ⟨g, hg, hbg⟩ := List.mem_flatten.mp hb
  obtain ⟨n, hn⟩ := List.mem_iff_getElem?.mp hg
  exact ⟨n + 1, g, Nat.succ_pos n, by rw [defaultStages_eq, List.getElem?_cons_succ, hn], hbg⟩

/-- C6, refuted as stated: a build of `gulp default` in which `app-styles`
fails. The trace is accepted, no further event is possible after it, and the
tasks `vulcanize`, `rename-index` and `remove-old-build-index` of the sequence
never start. -/
theorem failed_build_skips_tasks :
    defaultBuild.run failingTrace = some abortedBuild
    ∧ (∀ e : Event, abortedBuild.step e = none)
    ∧ "vulcanize" ∈ defaultSequence.flatten
    ∧ failingTrace.count (Event.start "vulcanize") = 0
    ∧ failingTrace.count (Event.start "rename-index") = 0
    ∧ failingTrace.count (Event.start "remove-old-build-index") = 0 := by
  refine ⟨by decide, ?_, by decide, by decide, by decide, by decide⟩
  intro e
  cases e <;> simp [Sched.step, abortedBuild]

/-- C6, amended: in every build of `gulp default`, failing or not, a task of a
later stage starts only after every task of every earlier stage has finished
(the stages being `clean`, then the groups of the run sequence in order); so
`clean` has finished before any task of the sequence starts, `vulcanize` starts
after `copy`, `html` and the three style tasks have finished, `rename-index`
after `vulcanize`, `remove-old-build-index` after `rename-index`. No task
starts or finishes twice, and in a build that reaches the end of the sequence
without a failure every task has started exactly once and finished exactly
once. -/
theorem default_build_staged (evs : List Event) (s : Sched)
    (h : defaultBuild.run evs = some s) :
    (∀ (i j : Nat) (gi gj : List String), i < j →
        defaultStages[i]? = some gi → defaultStages[j]? = some gj →
        ∀ a ∈ gi, ∀ b ∈ gj, ∀ pre post, evs = pre ++ Event.start b :: post →
          Event.finish a ∈ pre)
    ∧ (∀ b ∈ defaultSequence.flatten, ∀ pre post, evs = pre ++ Event.start b :: post →
        Event.finish "clean" ∈ pre)
    ∧ (∀ pre post, evs = pre ++ Event.start "vulcanize" :: post →
        Event.finish "copy" ∈ pre ∧ Event.finish "html" ∈ pre
        ∧ Event.finish "app-styles" ∈ pre ∧ Event.finish "element-styles" ∈ pre
        ∧ Event.finish "roster-styles" ∈ pre)
    ∧ (∀ pre post, evs = pre ++ Event.start "rename-index" :: post →
        Event.finish "vulcanize" ∈ pre)
    ∧ (∀ pre post, evs = pre ++ Event.start "remove-old-build-index" :: post →
        Event.finish "rename-index" ∈ pre)
    ∧ (∀ t, evs.count (Event.start t) ≤ 1 ∧ evs.count (Event.finish t) ≤ 1)
    ∧ (s.succeeded = true → ∀ t ∈ defaultStages.flatten,
        evs.count (Event.start t) = 1 ∧ evs.count (Event.finish t) = 1) := by
  rw [defaultBuild_eq] at h
  have hnd := defaultStages_nodup
  rw [defaultStages_eq] at hnd
  have order : ∀ (i j : Nat) (gi gj : List String), i < j →
      defaultStages[i]? = some gi → defaultStages[j]? = some gj →
      ∀ a ∈ gi, ∀ b ∈ gj, ∀ pre post, evs = pre ++ Event.start b :: post →
        Event.finish a ∈ pre := by
    intro i j gi gj hij hi hj a ha b hb pre post hevs
    exact Sched.start_after_earlier _ _ hnd evs s h i j gi gj hij hi hj a b ha hb pre post hevs
  have once := Sched.at_most_once _ _ hnd evs s h
  refine ⟨order, ?_, ?_, ?_, ?_, once, ?_⟩
  · intro b hb pre post hevs
    obtain ⟨j, gj, hj0, hj, hbj⟩ := sequence_stage b hb
    exact order 0 j ["clean"] gj hj0 rfl hj "clean" (by decide) b hbj pre post hevs
  · intro pre post hevs
    have hv : defaultStages[5]? = some ["vulcanize"] := rfl
    have h1 : defaultStages[1]? = some ["copy", "app-styles"] := rfl
    have h2 : defaultStages[2]? = some ["element-styles", "roster-styles"] := rfl
    have h3 : defaultStages[3]?
        = some ["app-images", "roster-images", "fonts", "html", "generate-roster"] := rfl
    have hvm : "vulcanize" ∈ ["vulcanize"] := by decide
    exact ⟨order 1 5 _ _ (by decide) h1 hv "copy" (by decide) _ hvm pre post hevs,
      order 3 5 _ _ (by decide) h3 hv "html" (by decide) _ hvm pre post hevs,
      order 1 5 _ _ (by decide) h1 hv "app-styles" (by decide) _ hvm pre post hevs,
      order 2 5 _ _ (by decide) h2 hv "element-styles" (by decide) _ hvm pre post hevs,
      order 2 5 _ _ (by decide) h2 hv "roster-styles" (by decide) _ hvm pre post hevs⟩
  · intro pre post hevs
    exact order 5 6 ["vulcanize"] ["rename-index"] (by decide) rfl rfl "vulcanize" (by decide)
      "rename-index" (by decide) pre post hevs
  · intro pre post hevs
    exact order 6 7 ["rename-index"] ["remove-old-build-index"] (by decide) rfl rfl
      "rename-index" (by decide) "remove-old-build-index" (by decide) pre post hevs
  · intro hs t ht
    have hran := Sched.all_ran _ _ hnd evs s h hs t (by rw [← defaultStages_eq]; exact ht)
    have h1 := List.one_le_count_iff.mpr hran.1
    have h2 := List.one_le_count_iff.mpr hran.2
    exact ⟨Nat.le_antisymm (once t).1 h1, Nat.le_antisymm (once t).2 h2⟩

/-- Witness of the amended C6: a complete build without failure. -/
theorem default_build_staged_witness :
    defaultBuild.run sampleTrace = some finishedBuild
    ∧ finishedBuild.succeeded = true
    ∧ (∀ pre post, sampleTrace = pre ++ Event.start "vulcanize" :: post →
        Event.finish "copy" ∈ pre ∧ Event.finish "html" ∈ pre
        ∧ Event.finish "app-styles" ∈ pre ∧ Event.finish "element-styles" ∈ pre
        ∧ Event.finish "roster-styles" ∈ pre)
    ∧ (∀ t ∈ defaultStages.flatten,
        sampleTrace.count (Event.start t) = 1 ∧ sampleTrace.count (Event.finish t) = 1) :=
  have h : defaultBuild.run sampleTrace = some finishedBuild := by decide
  ⟨h, by decide, (default_build_staged sampleTrace finishedBuild h).2.2.1,
    (default_build_staged sampleTrace finishedBuild h).2.2.2.2.2.2 (by decide)⟩

theorem manifest_writers (w : World) :
    (gulpfile.filter (fun t => decide (manifestPath ∈ (t.body w).targets))).map
        (fun t => t.name) = ["cache-config"] := rfl

theorem invoked_eq (w : World) :
    invoked w 20 "default"
      = [ "default", "clean", "copy", "app-styles", "element-styles", "roster-styles",
          "app-images", "roster-images", "fonts", "html", "generate-roster",
          "resize-profiles", "vulcanize", "rename-index", "remove-old-build-index" ]
    ∧ invoked w 20 "serve:dist" = "serve:dist" :: invoked w 20 "default"
    ∧ invoked w 20 "deploy" = "deploy" :: invoked w 20 "default" :=
  ⟨rfl, rfl, rfl⟩

/-- C7: `cache-config` is neither a prerequisite of `default` nor a member of
its run sequence; it is not among the tasks `gulp default`, `gulp serve:dist`
or `gulp deploy` can start, whose prerequisites are `clean` and `default`
only; no build of `gulp default` ever starts it; and it is the only declared
task that writes `dist/cache-config.json`, a file the root copy leaves out
by name. -/
theorem cacheConfig_not_default :
    "cache-config" ∉ defaultTask.deps
    ∧ "cache-config" ∉ defaultSequence.flatten
    ∧ (∀ w : World, "cache-config" ∉ invoked w 20 "default"
        ∧ "cache-config" ∉ invoked w 20 "serve:dist"
        ∧ "cache-config" ∉ invoked w 20 "deploy")
    ∧ (∀ t ∈ gulpfile, t.name = "serve:dist" ∨ t.name = "deploy" → t.deps = ["default"])
    ∧ (∀ evs s, defaultBuild.run evs = some s → Event.start "cache-config" ∉ evs)
    ∧ (∀ w : World, ∀ t ∈ gulpfile, manifestPath ∈ (t.body w).targets →
        t.name = "cache-config")
    ∧ manifestPath = "dist/cache-config.json"
    ∧ "!app/cache-config.json"
        ∈ (copyStreams.filter (fun st => decide ("dist" ∈ st.dests))).flatMap Stream.reads := by
  refine ⟨by decide, by decide, ?_, by decide, ?_, ?_, by decide, by decide⟩
  · intro w
    obtain ⟨h1, h2, h3⟩ := invoked_eq w
    rw [h2, h3, h1]
    decide
  · intro evs s h hstart
    rw [defaultBuild_eq] at h
    have hnd := defaultStages_nodup
    rw [defaultStages_eq] at hnd
    have hmem := Sched.started_mem _ _ hnd evs s h "cache-config" hstart
    revert hmem
    decide
  · intro w t ht hp
    have hmem : t.name ∈ (gulpfile.filter
        (fun t => decide (manifestPath ∈ (t.body w).targets))).map (fun t => t.name) :=
      List.mem_map.mpr ⟨t, List.mem_filter.mpr ⟨ht, decide_eq_true hp⟩, rfl⟩
    rw [manifest_writers] at hmem
    simpa using hmem

/-- C9: every directory or path a declared task writes into or deletes lies
under `.tmp` or `dist`, and none under `app` or `bower_components`. For every
`stylesPath`, `styleTask` reads the globs `path.join("app", stylesPath, src)`
and writes into `.tmp/<stylesPath>` and `dist/<stylesPath>` and nowhere else;
when `stylesPath` and the sources have no `..` component, as at the three
call sites, these are paths under `.tmp`, under `dist` and under
`app/<stylesPath>`. -/
theorem tasks_write_outputs_only :
    (∀ w : World, ∀ t ∈ gulpfile, ∀ p ∈ (t.body w).targets,
        (underRoot ".tmp" p = true ∨ underRoot "dist" p = true)
        ∧ underRoot "app" p = false ∧ underRoot "bower_components" p = false)
    ∧ (∀ stylesPath srcs,
        (styleTask stylesPath srcs).reads
          = srcs.map (fun src => pathJoin ["app", stylesPath, src])
        ∧ (styleTask stylesPath srcs).dests = [".tmp/" ++ stylesPath, "dist/" ++ stylesPath])
    ∧ (∀ stylesPath srcs, noParentSegment stylesPath = true →
        (∀ src ∈ srcs, noParentSegment src = true) →
        normSegments true (".tmp/" ++ stylesPath).data
          = ".tmp".data :: keptSegments stylesPath.data
        ∧ normSegments true ("dist/" ++ stylesPath).data
          = "dist".data :: keptSegments stylesPath.data
        ∧ (∀ r ∈ (styleTask stylesPath srcs).reads, ∃ src ∈ srcs,
            normSegments true r.data
              = "app".data :: (keptSegments stylesPath.data ++ keptSegments src.data)))
    ∧ (noParentSegment "styles" = true ∧ noParentSegment "elements" = true
        ∧ noParentSegment "roster" = true ∧ noParentSegment "**/*.css" = true) := by
  refine ⟨?_, ?_, ?_, by decide⟩
  · intro w t ht p hp
    have hmem : p ∈ gulpfile.flatMap (fun t => (t.body w).targets) :=
      List.mem_flatMap.mpr ⟨t, ht, hp⟩
    rw [targets_eq] at hmem
    clear hp
    revert p
    decide
  · intro stylesPath srcs
    exact ⟨rfl, rfl⟩
  · intro stylesPath srcs hsp hsrcs
    have hsp1 : [dot, dot] ∉ splitSlash stylesPath.data := of_decide_eq_true hsp
    refine ⟨?_, ?_, ?_⟩
    · exact normSegments_under ".tmp" stylesPath (by decide) (by decide) (by decide) hsp1
    · exact normSegments_under "dist" stylesPath (by decide) (by decide) (by decide) hsp1
    · intro r hr
      obtain ⟨src, hsrc, rfl⟩ := List.mem_map.mp hr
      exact ⟨src, hsrc,
        normSegments_pathJoin_app stylesPath src hsp1 (of_decide_eq_true (hsrcs src hsrc))⟩

/-! ## Theorems: the roster -/

theorem joinSegments_splitSlash (p : List Char) : joinSegments (splitSlash p) = p := by
  induction p with
  | nil => rfl
  | cons c cs ih =>
    by_cases hc : c = slash
    · simp only [splitSlash, hc, if_true]
      cases hs : splitSlash cs with
      | nil => exact absurd hs (splitSlash_ne_nil cs)
      | cons q qs =>
        rw [hs] at ih
        simp only [joinSegments, List.nil_append, ih]
    · rw [splitSlash]
      simp only [hc, if_false]
      cases hs : splitSlash cs with
      | nil => exact absurd hs (splitSlash_ne_nil cs)
      | cons q qs =>
        rw [hs] at ih
        cases qs with
        | nil =>
          simp only [joinSegments] at ih ⊢
          rw [ih]
        | cons q2 qs2 =>
          simp only [joinSegments, List.cons_append] at ih ⊢
          rw [ih]

theorem takeWhile_append_stop {α : Type} (f : α → Bool) (l1 l2 : List α) (x : α)
    (h1 : ∀ y ∈ l1, f y = true) (hx : f x = false) :
    (l1 ++ x :: l2).takeWhile f = l1 := by
  induction l1 with
  | nil => simp [List.takeWhile, hx]
  | cons y ys ih =>
    have hy := h1 y (List.mem_cons_self _ _)
    have ih1 := ih (fun z hz => h1 z (List.mem_cons_of_mem _ hz))
    rw [List.cons_append, List.takeWhile_cons, hy, if_pos rfl, ih1]

theorem finalComponent_append (x n : List Char) (hn : slash ∉ n) :
    finalComponent (x ++ slash :: n) = n := by
  unfold finalComponent
  rw [List.reverse_append, List.reverse_cons, List.append_assoc, List.singleton_append,
    takeWhile_append_stop _ _ _ _ _ (by simp), List.reverse_reverse]
  intro y hy
  have : y ≠ slash := fun e => hn (e ▸ List.mem_reverse.mp hy)
  simpa using this

theorem splitAtLastDot_none (n : List Char) (h : splitAtLastDot n = none) : dot ∉ n := by
  induction n with
  | nil => simp
  | cons c cs ih =>
    rw [splitAtLastDot] at h
    cases hs : splitAtLastDot cs with
    | some pr => rw [hs] at h; cases h
    | none =>
      rw [hs] at h
      by_cases hc : c = dot
      · simp [hc] at h
      · intro hm
        rcases List.mem_cons.mp hm with e | e
        · exact hc e.symm
        · exact ih hs e

theorem splitAtLastDot_some (n stem ext : List Char) (h : splitAtLastDot n = some (stem, ext)) :
    ∃ e, ext = dot :: e ∧ dot ∉ e ∧ n = stem ++ dot :: e := by
  induction n generalizing stem ext with
  | nil => simp [splitAtLastDot] at h
  | cons c cs ih =>
    rw [splitAtLastDot] at h
    cases hs : splitAtLastDot cs with
    | some pr =>
      obtain ⟨st, ex⟩ := pr
      rw [hs] at h
      simp only [Option.some.injEq, Prod.mk.injEq] at h
      obtain ⟨e, he1, he2, he3⟩ := ih st ex hs
      refine ⟨e, by rw [← h.2, he1], he2, ?_⟩
      rw [← h.1, he3]
      rfl
    | none =>
      rw [hs] at h
      by_cases hc : c = dot
      · simp only [hc, if_true, Option.some.injEq, Prod.mk.injEq] at h
        exact ⟨cs, h.2.symm, splitAtLastDot_none cs hs, by rw [← h.1, hc]; rfl⟩
      · simp [hc] at h

/-- On a file name that does not open with a dot, stripping the extension the
way the script does gives the name without its last extension. -/
theorem strip_ext_eq (n : List Char) (hhead : n.head? ≠ some dot) :
    (match splitAtLastDot n with
      | none => n
      | some (stem, ext) => if stem = [] ∨ n = [dot, dot] then n else stripSuffix n ext)
      = withoutLastExtension n := by
  cases hs : splitAtLastDot n with
  | none =>
    have hd := splitAtLastDot_none n hs
    simp only [withoutLastExtension, hd, false_and, if_false]
  | some pr =>
    obtain ⟨stem, ext⟩ := pr
    obtain ⟨e, rfl, he, hn⟩ := splitAtLastDot_some n stem _ hs
    have hafter : (n.reverse.takeWhile (fun c => decide (c ≠ dot))) = e.reverse := by
      rw [hn, List.reverse_append, List.reverse_cons, List.append_assoc, List.singleton_append]
      apply takeWhile_append_stop
      · intro y hy
        have : y ≠ dot := fun h => he (h ▸ List.mem_reverse.mp hy)
        simpa using this
      · simp
    have hdot : dot ∈ n := by rw [hn]; simp
    have hlen : n.length = stem.length + (e.length + 1) := by rw [hn]; simp
    have hnn : n ≠ [dot, dot] := by
      intro h
      rw [h] at hhead
      exact hhead rfl
    simp only [withoutLastExtension, hafter, List.length_reverse, hdot, true_and, hnn, or_false]
    by_cases hst : stem = []
    · have h0 : ¬ (e.length + 1 < n.length) := by rw [hlen, hst]; simp
      simp only [hst, if_true, h0, if_false]
    · have hpos : 0 < stem.length := List.length_pos.mpr hst
      have h1 : e.length + 1 < n.length := by rw [hlen]; omega
      have h2 : n.length - (e.length + 1) = stem.length := by rw [hlen]; omega
      have hdrop : n.drop stem.length = dot :: e := by rw [hn]; simp
      have htake : n.take stem.length = stem := by rw [hn]; simp
      simp only [hst, if_false, h1, if_true, stripSuffix, List.length_cons, h2, hdrop, and_self,
        htake]

theorem matchesRosterGlob_split (p : String) (h : matchesRosterGlob p = true) :
    ∃ n, splitSlash p.data = ["app".data, "roster".data, n] ∧ plainName n = true := by
  unfold matchesRosterGlob at h
  split at h
  · next a r n heq =>
    simp only [decide_eq_true_eq] at h
    exact ⟨n, by rw [heq, h.1, h.2.1], h.2.2⟩
  · cases h

/-- On a path matched by `app/roster/*`, the member the script computes is the
final component without its last extension, and holds no separator. -/
theorem member_eq_expected (p : String) (h : matchesRosterGlob p = true) :
    member p = expectedMember p ∧ slash ∉ (member p).data := by
  obtain ⟨n, hsplit, hplain⟩ := matchesRosterGlob_split p h
  simp only [plainName, decide_eq_true_eq] at hplain
  obtain ⟨hne, hhead⟩ := hplain
  have hfree : slash ∉ n := splitSlash_slash_free p.data n (by rw [hsplit]; simp)
  have hdata : p.data = ("app".data ++ slash :: "roster".data) ++ slash :: n := by
    have := joinSegments_splitSlash p.data
    rw [hsplit] at this
    rw [← this]
    simp [joinSegments]
  have hlast : lastSegment p.data = n := by
    unfold lastSegment
    rw [hsplit]
    simp [List.dropWhile, hne]
  have hfinal : finalComponent p.data = n := by
    rw [hdata]
    exact finalComponent_append _ n hfree
  have hslashp : slash ∈ p.data := by rw [hdata]; simp
  have key : (member p).data = withoutLastExtension n := by
    rw [← strip_ext_eq n hhead]
    unfold member pathExtname
    simp only [hlast]
    cases hs : splitAtLastDot n with
    | none => simp [pathBasename, hlast]
    | some pr =>
      obtain ⟨stem, ext⟩ := pr
      obtain ⟨e, rfl, he, hn⟩ := splitAtLastDot_some n stem _ hs
      by_cases hc : stem = [] ∨ n = [dot, dot]
      · simp [hc, pathBasename, hlast]
      · have hneq : ({ data := dot :: e } : String) ≠ p := by
          intro heq
          have hmem : slash ∈ dot :: e := by
            have := congrArg String.data heq
            simp only at this
            rw [this]
            exact hslashp
          have hsub : slash ∈ n := by rw [hn]; exact List.mem_append_right _ hmem
          exact hfree hsub
        simp [hc, pathBasename, hlast, hneq]
  refine ⟨?_, ?_⟩
  · unfold expectedMember
    rw [hfinal, ← key]
  · rw [key]
    intro hm
    unfold withoutLastExtension at hm
    simp only at hm
    split at hm
    · exact hfree (List.mem_of_mem_take hm)
    · exact hfree hm

theorem generateRoster_written (w : World) :
    (generateRoster w).written
      = [ (".tmp/roster/roster.json", w.stringifyObject (rosterMembers w)),
          ("dist/roster/roster.json", w.stringifyObject (rosterMembers w)) ] := by
  have h1 : pathJoin [".tmp/roster/", "roster.json"] = ".tmp/roster/roster.json" := by decide
  have h2 : pathJoin ["dist/roster/", "roster.json"] = "dist/roster/roster.json" := by decide
  simp only [generateRoster, string_src, Stream.pipe, Stream.written, Stream.dests,
    List.nil_append, List.cons_append, List.flatMap_cons, List.flatMap_nil, Stage.dests,
    List.append_nil, List.map_cons, List.map_nil, h1, h2]

/-- C10: when every path `glob.sync("app/roster/*")` returns is matched by
that pattern, the member list `generate-roster` serializes is the list of the
paths, in order and one for one, each turned into its final component with only
the last extension removed, which holds no separator; and the one serialized
string is written to `.tmp/roster/roster.json` and to `dist/roster/roster.json`. -/
theorem roster_members (w : World) (h : ∀ p ∈ w.rosterPaths, matchesRosterGlob p = true) :
    rosterMembers w = w.rosterPaths.map expectedMember
    ∧ (rosterMembers w).length = w.rosterPaths.length
    ∧ (∀ (i : Nat) (p : String), w.rosterPaths[i]? = some p →
        (rosterMembers w)[i]? = some (expectedMember p))
    ∧ (∀ m ∈ rosterMembers w, slash ∉ m.data)
    ∧ (generateRoster w).written
        = [ (".tmp/roster/roster.json", w.stringifyObject (rosterMembers w)),
            ("dist/roster/roster.json", w.stringifyObject (rosterMembers w)) ]
    ∧ expectedMember "app/roster/jane" = "jane"
    ∧ expectedMember "app/roster/a.b.c" = "a.b" := by
  have hmap : rosterMembers w = w.rosterPaths.map expectedMember := by
    unfold rosterMembers
    apply List.map_congr_left
    intro p hp
    exact (member_eq_expected p (h p hp)).1
  refine ⟨hmap, by simp [rosterMembers], ?_, ?_, generateRoster_written w, by decide, by decide⟩
  · intro i p hi
    rw [hmap, List.getElem?_map, hi]
    rfl
  · intro m hm
    unfold rosterMembers at hm
    obtain ⟨p, hp, rfl⟩ := List.mem_map.mp hm
    exact (member_eq_expected p (h p hp)).2

/-- Witness of C10: a roster directory holding `jane` and `a.b.c`. -/
theorem roster_members_witness :
    (∀ p ∈ sampleWorld.rosterPaths, matchesRosterGlob p = true)
    ∧ rosterMembers sampleWorld = ["jane", "a.b"]
    ∧ rosterMembers sampleWorld = sampleWorld.rosterPaths.map expectedMember
    ∧ (∀ m ∈ rosterMembers sampleWorld, slash ∉ m.data)
    ∧ (generateRoster sampleWorld).written
        = [ (".tmp/roster/roster.json", sampleStringify (rosterMembers sampleWorld)),
            ("dist/roster/roster.json", sampleStringify (rosterMembers sampleWorld)) ] :=
  have hglob : ∀ p ∈ sampleWorld.rosterPaths, matchesRosterGlob p = true := by decide
  ⟨hglob, by decide, (roster_members sampleWorld hglob).1,
    (roster_members sampleWorld hglob).2.2.2.1, (roster_members sampleWorld hglob).2.2.2.2.1⟩


end Gulpfile
